import Mathlib

/-!
# Lexer.go: a shallow embedding of the scanner and its verification

The Go program wraps a `bufio.Reader` in a `Scanner` and exposes `Scan`, which
skips white space and returns the next `(Token, string)` pair.

Modelling decisions.

* The underlying stream is the finite sequence of runes that `ReadRune`
  delivers, a `List Char`.  `bufio.Reader` is represented by that sequence, the
  read position `r` and the field `lastRuneSize`, which is `-1` exactly when
  `UnreadRune` would be refused.  Positions count runes, so a successful
  `ReadRune` sets `lastRuneSize` to `1`.
* Go strings produced by the scanner are Lean `String`s, `bytes.Buffer.WriteRune`
  is `String.push` and `string(r)` is `String.singleton`.
* The three `for` loops run on fuel.  They return `none` when the fuel is used
  up; `Scan` hands every loop one more unit of fuel than there are runes left,
  and `Scan_isSome` shows that this is always enough.
* `Traced` is the same scanner with a log of the requests made to the reader
  (`ReadRune`, `UnreadRune`) and their outcomes; it serves to state in which
  order the requests are made.
* `tokens` is built from the keyed elements of the slice literal, and `none`
  stands for the panic of an index out of range.
-/

namespace Lexer

/-! ## Token kinds (`Lexer.go`, lines 11-24 and 41) -/

abbrev Token := Int

def SEMICOLON : Token := 1

def PLUS : Token := 2

def MINUS : Token := 3

def EOF : Token := 4

def ILLEGAL : Token := 5

def DQUOTE : Token := 7

def SQUOTE : Token := 8

def IDENT : Token := 9

def EQUAL : Token := 10

def MULTIPLY : Token := 11

def TEXT : Token := 12

def NUMBER : Token := 13

/-- The sentinel `var eof = rune(0)`. -/
def eof : Char := Char.ofNat 0

/-! ## The buffered reader -/

/-- The part of `bufio.Reader` the scanner uses: the runes of the stream,
the read position and `lastRuneSize`. -/
structure Reader where
  buf : List Char
  r : Nat
  lastRuneSize : Int
deriving DecidableEq, Repr

/-- `bufio.Reader.ReadRune`: at the end of the stream it reports an error
(`none`) and records that nothing can be unread; otherwise it delivers the rune
at the read position and advances. -/
def Reader.ReadRune (b : Reader) : Option Char × Reader :=
  match b.buf[b.r]? with
  | none => (none, Reader.mk b.buf b.r (-1))
  | some c => (some c, Reader.mk b.buf (b.r + 1) 1)

/-- `bufio.Reader.UnreadRune`: refused (returning `false`, state unchanged) when
the last operation was not a successful `ReadRune`; otherwise steps back over the
last rune.  The flag tells whether the request was honoured. -/
def Reader.UnreadRune (b : Reader) : Bool × Reader :=
  if b.lastRuneSize < 0 ∨ (b.r : Int) < b.lastRuneSize then (false, b)
  else (true, Reader.mk b.buf (b.r - b.lastRuneSize.toNat) (-1))

/-- The runes not yet consumed. -/
def Reader.rest (b : Reader) : List Char := b.buf.drop b.r

/-! ## The scanner -/

structure Scanner where
  reader : Reader
deriving DecidableEq, Repr

/-- `NewReader`: a scanner over a fresh `bufio.Reader`. -/
def NewReader (input : List Char) : Scanner := Scanner.mk (Reader.mk input 0 (-1))

/-- The runes the scanner has not consumed yet. -/
def Scanner.rest (s : Scanner) : List Char := s.reader.rest

/-- `Scanner.Read`: the next rune, or `eof` when `ReadRune` reports an error. -/
def Scanner.Read (s : Scanner) : Char × Scanner :=
  match s.reader.ReadRune with
  | (none, b) => (eof, Scanner.mk b)
  | (some r, b) => (r, Scanner.mk b)

/-- `Scanner.unread`: calls `UnreadRune` and drops its error. -/
def Scanner.unread (s : Scanner) : Scanner := Scanner.mk s.reader.UnreadRune.2

def isSpace (r : Char) : Bool :=
  (String.singleton r == " " || r == '\n' || r == '\r' || r == '\t')

def isCharacter (r : Char) : Bool :=
  (r ≥ 'a' && r ≤ 'z') || (r ≥ 'A' && r ≤ 'Z')

def isNumber (r : Char) : Bool :=
  (r ≥ '0' && r ≤ '9')

/-- The `for` loop of `readCharacters`, with the buffer as accumulator. -/
def Scanner.readCharactersLoop : Nat → Scanner → String → Option (String × Scanner)
  | 0, _, _ => none
  | fuel + 1, s, buf =>
    match s.Read with
    | (r, s1) =>
      if r = eof then some (buf, s1)
      else if isCharacter r then readCharactersLoop fuel s1 (buf.push r)
      else some (buf, s1.unread)

/-- The `for` loop of `readNumbers`, with the buffer as accumulator. -/
def Scanner.readNumbersLoop : Nat → Scanner → String → Option (String × Scanner)
  | 0, _, _ => none
  | fuel + 1, s, buf =>
    match s.Read with
    | (r, s1) =>
      if r = eof then some (buf, s1)
      else if isNumber r then readNumbersLoop fuel s1 (buf.push r)
      else some (buf, s1.unread)

/-- The `for` loop of `consumeSpace`. -/
def Scanner.consumeSpaceLoop : Nat → Scanner → Option Scanner
  | 0, _ => none
  | fuel + 1, s =>
    match s.Read with
    | (r, s1) =>
      if r = eof then some s1
      else if isSpace r then consumeSpaceLoop fuel s1
      else some s1.unread

/-- Fuel for one loop started in state `s`: one iteration for every rune of the
stream and one for the read that fails at its end. -/
def Scanner.fuel (s : Scanner) : Nat := s.reader.buf.length + 1

def Scanner.readCharacters (s : Scanner) : Option (String × Scanner) :=
  Scanner.readCharactersLoop s.fuel s.unread ""

def Scanner.readNumbers (s : Scanner) : Option (String × Scanner) :=
  Scanner.readNumbersLoop s.fuel s.unread ""

def Scanner.consumeSpace (s : Scanner) : Option Scanner :=
  Scanner.consumeSpaceLoop s.fuel s

/-- `Scanner.Scan`: the token kind, its lexeme and the scanner afterwards. -/
def Scanner.Scan (s : Scanner) : Option ((Token × String) × Scanner) :=
  match s.consumeSpace with
  | none => none
  | some s0 =>
    match s0.Read with
    | (r, s1) =>
      if isNumber r then
        match s1.readNumbers with
        | none => none
        | some (txt, s2) => some ((NUMBER, txt), s2)
      else if isCharacter r then
        match s1.readCharacters with
        | none => none
        | some (txt, s2) => some ((TEXT, txt), s2)
      else if r = ';' then some ((SEMICOLON, String.singleton r), s1)
      else if r = '+' then some ((PLUS, String.singleton r), s1)
      else if r = '*' then some ((MULTIPLY, String.singleton r), s1)
      else if r = '-' then some ((MINUS, String.singleton r), s1)
      else if r = eof then some ((EOF, ""), s1)
      else if r = '"' then some ((DQUOTE, String.singleton r), s1)
      else if r = '\'' then some ((SQUOTE, String.singleton r), s1)
      else if r = '=' then some ((EQUAL, String.singleton r), s1)
      else some ((ILLEGAL, ""), s1)

/-- The results of `n` successive calls of `Scan`, in order, and the scanner
after the last of them. -/
def Scanner.ScanN : Nat → Scanner → Option (List (Token × String) × Scanner)
  | 0, s => some ([], s)
  | n + 1, s =>
    match s.Scan with
    | none => none
    | some (t, s1) =>
      match ScanN n s1 with
      | none => none
      | some (ts, s2) => some (t :: ts, s2)

/-- Scanner state written out: stream, read position, `lastRuneSize`. -/
def st (buf : List Char) (r : Nat) (l : Int) : Scanner := Scanner.mk (Reader.mk buf r l)

/-- Scanner state in which a loop stops when the runes in front of it, at
position `r`, are `tail`: a rune equal to `eof` has been read and is not given
back, any other rune has been unread, and at the end of the stream the read
failed. -/
def stopAt (buf : List Char) (r : Nat) (tail : List Char) : Scanner :=
  match tail with
  | [] => st buf r (-1)
  | c :: _ => if c = eof then st buf (r + 1) 1 else st buf r (-1)

/-- The runes left unread by a loop that stops in front of `tail`. -/
def afterStop : List Char → List Char
  | [] => []
  | c :: t => if c = eof then t else c :: t

/-- The result of `Scan` and the runes it leaves unread, as a function of the
runes that were unread before the call.  `Scan_eq_scanList` proves that `Scan`
computes exactly this. -/
def scanList (rem : List Char) : (Token × String) × List Char :=
  match afterStop (rem.dropWhile isSpace) with
  | [] => ((EOF, ""), [])
  | c :: cs =>
    if isNumber c then
      ((NUMBER, String.mk ((c :: cs).takeWhile isNumber)),
        afterStop ((c :: cs).dropWhile isNumber))
    else if isCharacter c then
      ((TEXT, String.mk ((c :: cs).takeWhile isCharacter)),
        afterStop ((c :: cs).dropWhile isCharacter))
    else if c = ';' then ((SEMICOLON, String.singleton c), cs)
    else if c = '+' then ((PLUS, String.singleton c), cs)
    else if c = '*' then ((MULTIPLY, String.singleton c), cs)
    else if c = '-' then ((MINUS, String.singleton c), cs)
    else if c = eof then ((EOF, ""), cs)
    else if c = '"' then ((DQUOTE, String.singleton c), cs)
    else if c = '\'' then ((SQUOTE, String.singleton c), cs)
    else if c = '=' then ((EQUAL, String.singleton c), cs)
    else ((ILLEGAL, ""), cs)

/-- The result of the call of `Scan` that follows `n` earlier calls on the
same scanner. -/
def Scanner.ScanAt (n : Nat) (s : Scanner) : Option (Token × String) :=
  match s.ScanN n with
  | none => none
  | some (_, s1) =>
    match s1.Scan with
    | none => none
    | some (t, _) => some t

/-- The image of `ScanN` under `scanList`: the results of `n` calls and the
runes left unread, as a function of the runes unread at the start. -/
def scanListN : Nat → List Char → List (Token × String) × List Char
  | 0, rem => ([], rem)
  | n + 1, rem =>
    ((scanList rem).1 :: (scanListN n (scanList rem).2).1, (scanListN n (scanList rem).2).2)

/-- The seven runes that `Scan` returns as a token of their own. -/
def punctuation : List Char := [';', '+', '*', '-', '"', '\'', '=']

/-- The runes of the stream between the read position of `s` and that of
`s1`. -/
def Scanner.consumedUpTo (s s1 : Scanner) : List Char :=
  (s.reader.buf.drop s.reader.r).take (s1.reader.r - s.reader.r)

/-- The runes that `consumeSpace`, called in state `s`, moves past. -/
def Scanner.skipped (s : Scanner) : Option (List Char) :=
  match s.consumeSpace with
  | none => none
  | some s0 => some (s.consumedUpTo s0)

/-- Calls `Scan` until it returns `EOF` and puts the pieces together again:
for every token before the first `EOF` the runes skipped in front of it and then
its lexeme, and at the end the runes skipped by the call that returned `EOF`.
`none` when the fuel (the number of calls allowed) is used up first. -/
def Scanner.reassemble : Nat → Scanner → Option (List Char)
  | 0, _ => none
  | fuel + 1, s =>
    match s.skipped, s.Scan with
    | some ws, some ((tkn, vl), s1) =>
      if tkn = EOF then some ws
      else
        match reassemble fuel s1 with
        | none => none
        | some out => some (ws ++ vl.data ++ out)
    | _, _ => none

/-- Runes that `Scan` neither reports as `ILLEGAL` nor reads as end of input:
white space, digits, letters and the seven punctuation runes. -/
def classified (c : Char) : Prop :=
  isSpace c = true ∨ isNumber c = true ∨ isCharacter c = true ∨ c ∈ punctuation

instance (c : Char) : Decidable (classified c) := by
  unfold classified
  exact inferInstance

/-- The kind that the token table of the specification gives to each of the
seven punctuation runes (and `ILLEGAL` to any other rune). -/
def punctuationKind (c : Char) : Token :=
  if c = ';' then SEMICOLON
  else if c = '+' then PLUS
  else if c = '*' then MULTIPLY
  else if c = '-' then MINUS
  else if c = '"' then DQUOTE
  else if c = '\'' then SQUOTE
  else if c = '=' then EQUAL
  else ILLEGAL

/-- The eleven kinds of the token table of the specification. -/
def kinds : List Token :=
  [SEMICOLON, PLUS, MINUS, MULTIPLY, EQUAL, DQUOTE, SQUOTE, TEXT, NUMBER, EOF, ILLEGAL]

/-- The tests that `Scan` applies to the rune `r` it has read, in the order of
the source, each with the kind returned when the test succeeds. -/
def branches (r : Char) : List (Bool × Token) :=
  [(isNumber r, NUMBER), (isCharacter r, TEXT), (decide (r = ';'), SEMICOLON),
    (decide (r = '+'), PLUS), (decide (r = '*'), MULTIPLY), (decide (r = '-'), MINUS),
    (decide (r = eof), EOF), (decide (r = '"'), DQUOTE), (decide (r = '\''), SQUOTE),
    (decide (r = '='), EQUAL)]

/-- An `if` / `else if` chain over a list of tests: the kind of the first test
that succeeds, and `ILLEGAL` (the final `return` of `Scan`) when none does. -/
def firstMatch : List (Bool × Token) → Token
  | [] => ILLEGAL
  | (b, t) :: rest => if b then t else firstMatch rest

/-- The keyed elements of the slice literal `tokens` (`Lexer.go`, lines 26-39). -/
def tokenNames : List (Token × String) :=
  [(SEMICOLON, "SEMICOLON"), (PLUS, "PLUS"), (MINUS, "MINUS"), (EOF, "EOF"),
    (ILLEGAL, "ILLEGAL"), (DQUOTE, "DOUBLEQUOTE"), (SQUOTE, "SINGLEQUOTE"), (IDENT, "IDENT"),
    (EQUAL, "EQUAL"), (MULTIPLY, "MULTIPLY"), (TEXT, "TEXT"), (NUMBER, "NUMBER")]

/-- A Go slice literal with keyed elements: its length is the largest key plus
one, and an index without an element holds the zero value `""`. -/
def keyedSlice (elems : List (Token × String)) : List String :=
  (List.range ((elems.map (fun e => e.1.toNat)).foldl max 0 + 1)).map
    (fun i => (elems.lookup (i : Int)).getD "")

/-- The table `var tokens = []string{...}`. -/
def tokens : List String := keyedSlice tokenNames

/-- `Token.String`, that is `tokens[t]`: `none` stands for the run-time panic
of an index out of range. -/
def Token.String (t : Token) : Option String :=
  if t < 0 then none else tokens[t.toNat]?

/-! ## The scanner with a log of its reader requests -/

/-- A request made to the reader: `ReadRune` or `UnreadRune`, with `true` when
it succeeded and `false` when it returned an error. -/
inductive Op where
  | read (ok : Bool)
  | unread (ok : Bool)
deriving DecidableEq, Repr

/-- A scanner together with the requests made to its reader, the most recent
request first. -/
structure Traced where
  s : Scanner
  log : List Op
deriving DecidableEq, Repr

/-- `Scanner.Read`, logged. -/
def Traced.Read (t : Traced) : Char × Traced :=
  (t.s.Read.1, Traced.mk t.s.Read.2 (Op.read t.s.reader.ReadRune.1.isSome :: t.log))

/-- `Scanner.unread`, logged with the outcome that the source drops. -/
def Traced.unread (t : Traced) : Traced :=
  Traced.mk t.s.unread (Op.unread t.s.reader.UnreadRune.1 :: t.log)

/-- The loop of `readCharacters`, logged. -/
def Traced.readCharactersLoop : Nat → Traced → String → Option (String × Traced)
  | 0, _, _ => none
  | fuel + 1, t, buf =>
    match t.Read with
    | (r, t1) =>
      if r = eof then some (buf, t1)
      else if isCharacter r then readCharactersLoop fuel t1 (buf.push r)
      else some (buf, t1.unread)

/-- The loop of `readNumbers`, logged. -/
def Traced.readNumbersLoop : Nat → Traced → String → Option (String × Traced)
  | 0, _, _ => none
  | fuel + 1, t, buf =>
    match t.Read with
    | (r, t1) =>
      if r = eof then some (buf, t1)
      else if isNumber r then readNumbersLoop fuel t1 (buf.push r)
      else some (buf, t1.unread)

/-- The loop of `consumeSpace`, logged. -/
def Traced.consumeSpaceLoop : Nat → Traced → Option Traced
  | 0, _ => none
  | fuel + 1, t =>
    match t.Read with
    | (r, t1) =>
      if r = eof then some t1
      else if isSpace r then consumeSpaceLoop fuel t1
      else some t1.unread

def Traced.readCharacters (t : Traced) : Option (String × Traced) :=
  Traced.readCharactersLoop t.s.fuel t.unread ""

def Traced.readNumbers (t : Traced) : Option (String × Traced) :=
  Traced.readNumbersLoop t.s.fuel t.unread ""

def Traced.consumeSpace (t : Traced) : Option Traced :=
  Traced.consumeSpaceLoop t.s.fuel t

/-- `Scanner.Scan`, logged. -/
def Traced.Scan (t : Traced) : Option ((Token × String) × Traced) :=
  match t.consumeSpace with
  | none => none
  | some t0 =>
    match t0.Read with
    | (r, t1) =>
      if isNumber r then
        match t1.readNumbers with
        | none => none
        | some (txt, t2) => some ((NUMBER, txt), t2)
      else if isCharacter r then
        match t1.readCharacters with
        | none => none
        | some (txt, t2) => some ((TEXT, txt), t2)
      else if r = ';' then some ((SEMICOLON, String.singleton r), t1)
      else if r = '+' then some ((PLUS, String.singleton r), t1)
      else if r = '*' then some ((MULTIPLY, String.singleton r), t1)
      else if r = '-' then some ((MINUS, String.singleton r), t1)
      else if r = eof then some ((EOF, ""), t1)
      else if r = '"' then some ((DQUOTE, String.singleton r), t1)
      else if r = '\'' then some ((SQUOTE, String.singleton r), t1)
      else if r = '=' then some ((EQUAL, String.singleton r), t1)
      else some ((ILLEGAL, ""), t1)

/-- Checks a log, most recent request first: every unread request succeeded and
the request made just before it was a read that succeeded. -/
def unreadsFollowReads : List Op → Bool
  | [] => true
  | Op.read _ :: older => unreadsFollowReads older
  | Op.unread ok :: older =>
    ok && decide (older.head? = some (Op.read true)) && unreadsFollowReads older

/-! ## Basic facts about the reader -/

theorem st_rest (buf : List Char) (r : Nat) (l : Int) : (st buf r l).rest = buf.drop r := rfl

theorem st_fuel (buf : List Char) (r : Nat) (l : Int) : (st buf r l).fuel = buf.length + 1 := rfl

theorem Scanner.eq_st (s : Scanner) :
    s = st s.reader.buf s.reader.r s.reader.lastRuneSize := rfl

theorem drop_succ_of_cons {buf : List Char} {r : Nat} {c : Char} {cs : List Char}
    (h : buf.drop r = c :: cs) : buf.drop (r + 1) = cs := by
  have h1 : buf.drop (r + 1) = (buf.drop r).drop 1 := by
    rw [List.drop_drop]
  rw [h1, h]; rfl

theorem Read_cons {buf : List Char} {r : Nat} {c : Char} {cs : List Char} (l : Int)
    (h : buf.drop r = c :: cs) : (st buf r l).Read = (c, st buf (r + 1) 1) := by
  have hget : buf[r]? = some c := by
    have h2 := List.getElem?_drop (L := buf) (i := r) (j := 0)
    rw [h] at h2
    simpa using h2.symm
  simp [Scanner.Read, Reader.ReadRune, st, hget]

theorem Read_nil {buf : List Char} {r : Nat} (l : Int)
    (h : buf.drop r = []) : (st buf r l).Read = (eof, st buf r (-1)) := by
  have hget : buf[r]? = none := by
    rw [List.getElem?_eq_none_iff]
    exact List.drop_eq_nil_iff.mp h
  simp [Scanner.Read, Reader.ReadRune, st, hget]

theorem unread_after_read (buf : List Char) (r : Nat) :
    (st buf (r + 1) 1).unread = st buf r (-1) := by
  have h : ¬ ((1 : Int) < 0 ∨ ((r + 1 : Nat) : Int) < 1) := by omega
  simp only [Scanner.unread, Reader.UnreadRune, st, h, if_false]
  rfl

/-! ## What the three loops compute -/

theorem stopAt_rest {buf : List Char} {r : Nat} {tail : List Char}
    (h : buf.drop r = tail) : (stopAt buf r tail).rest = afterStop tail := by
  cases tail with
  | nil => simpa [stopAt, afterStop, st_rest] using h
  | cons c t =>
    by_cases hc : c = eof
    · simp [stopAt, afterStop, hc, st_rest, drop_succ_of_cons h]
    · simp [stopAt, afterStop, hc, st_rest, h]

theorem stopAt_buf (buf : List Char) (r : Nat) (tail : List Char) :
    (stopAt buf r tail).reader.buf = buf := by
  cases tail with
  | nil => rfl
  | cons c t => by_cases hc : c = eof <;> simp [stopAt, hc, st]

theorem isNumber_eof : isNumber eof = false := by decide

theorem isCharacter_eof : isCharacter eof = false := by decide

theorem isSpace_eof : isSpace eof = false := by decide

theorem readNumbersLoop_spec (buf : List Char) :
    ∀ (rem : List Char) (fuel r : Nat) (l : Int) (acc : String),
      rem.length < fuel → buf.drop r = rem →
      Scanner.readNumbersLoop fuel (st buf r l) acc =
        some (String.mk (acc.data ++ rem.takeWhile isNumber),
          stopAt buf (r + (rem.takeWhile isNumber).length) (rem.dropWhile isNumber)) := by
  intro rem
  induction rem with
  | nil =>
    intro fuel r l acc hf hr
    cases fuel with
    | zero => simp at hf
    | succ f => simp [Scanner.readNumbersLoop, Read_nil l hr, stopAt]
  | cons c cs ih =>
    intro fuel r l acc hf hr
    cases fuel with
    | zero => simp at hf
    | succ f =>
      have hf2 : cs.length < f := by simpa using hf
      by_cases hc : c = eof
      · subst hc
        simp [Scanner.readNumbersLoop, Read_cons l hr, stopAt, isNumber_eof]
      · by_cases hp : isNumber c = true
        · have h2 := ih f (r + 1) 1 (acc.push c) hf2 (drop_succ_of_cons hr)
          simp only [Scanner.readNumbersLoop, Read_cons l hr, hc, hp, if_true, if_false, h2]
          simp [List.takeWhile_cons, List.dropWhile_cons, hp, Nat.add_assoc, Nat.add_comm 1]
        · simp [Scanner.readNumbersLoop, Read_cons l hr, stopAt, hc, hp, unread_after_read]

theorem readCharactersLoop_spec (buf : List Char) :
    ∀ (rem : List Char) (fuel r : Nat) (l : Int) (acc : String),
      rem.length < fuel → buf.drop r = rem →
      Scanner.readCharactersLoop fuel (st buf r l) acc =
        some (String.mk (acc.data ++ rem.takeWhile isCharacter),
          stopAt buf (r + (rem.takeWhile isCharacter).length) (rem.dropWhile isCharacter)) := by
  intro rem
  induction rem with
  | nil =>
    intro fuel r l acc hf hr
    cases fuel with
    | zero => simp at hf
    | succ f => simp [Scanner.readCharactersLoop, Read_nil l hr, stopAt]
  | cons c cs ih =>
    intro fuel r l acc hf hr
    cases fuel with
    | zero => simp at hf
    | succ f =>
      have hf2 : cs.length < f := by simpa using hf
      by_cases hc : c = eof
      · subst hc
        simp [Scanner.readCharactersLoop, Read_cons l hr, stopAt, isCharacter_eof]
      · by_cases hp : isCharacter c = true
        · have h2 := ih f (r + 1) 1 (acc.push c) hf2 (drop_succ_of_cons hr)
          simp only [Scanner.readCharactersLoop, Read_cons l hr, hc, hp, if_true, if_false, h2]
          simp [List.takeWhile_cons, List.dropWhile_cons, hp, Nat.add_assoc, Nat.add_comm 1]
        · simp [Scanner.readCharactersLoop, Read_cons l hr, stopAt, hc, hp, unread_after_read]

theorem consumeSpaceLoop_spec (buf : List Char) :
    ∀ (rem : List Char) (fuel r : Nat) (l : Int),
      rem.length < fuel → buf.drop r = rem →
      Scanner.consumeSpaceLoop fuel (st buf r l) =
        some (stopAt buf (r + (rem.takeWhile isSpace).length) (rem.dropWhile isSpace)) := by
  intro rem
  induction rem with
  | nil =>
    intro fuel r l hf hr
    cases fuel with
    | zero => simp at hf
    | succ f => simp [Scanner.consumeSpaceLoop, Read_nil l hr, stopAt]
  | cons c cs ih =>
    intro fuel r l hf hr
    cases fuel with
    | zero => simp at hf
    | succ f =>
      have hf2 : cs.length < f := by simpa using hf
      by_cases hc : c = eof
      · subst hc
        simp [Scanner.consumeSpaceLoop, Read_cons l hr, stopAt, isSpace_eof]
      · by_cases hp : isSpace c = true
        · have h2 := ih f (r + 1) 1 hf2 (drop_succ_of_cons hr)
          simp only [Scanner.consumeSpaceLoop, Read_cons l hr, hc, hp, if_true, if_false, h2]
          simp [List.takeWhile_cons, List.dropWhile_cons, hp, Nat.add_assoc, Nat.add_comm 1]
        · simp [Scanner.consumeSpaceLoop, Read_cons l hr, stopAt, hc, hp, unread_after_read]

/-! ## One call of `Scan`, read off the unread runes -/

theorem drop_add_takeWhile {buf : List Char} {r : Nat} {rem : List Char} (p : Char → Bool)
    (h : buf.drop r = rem) :
    buf.drop (r + (rem.takeWhile p).length) = rem.dropWhile p := by
  have h1 : buf.drop (r + (rem.takeWhile p).length)
      = (buf.drop r).drop (rem.takeWhile p).length := by
    rw [List.drop_drop, Nat.add_comm]
  have h2 : (rem.takeWhile p ++ rem.dropWhile p).drop (rem.takeWhile p).length
      = rem.dropWhile p := List.drop_left _ _
  rw [h1, h]
  rwa [List.takeWhile_append_dropWhile] at h2

theorem stopAt_eq_st {buf : List Char} {r : Nat} {tail : List Char}
    (h : buf.drop r = tail) :
    ∃ r1 l1, stopAt buf r tail = st buf r1 l1 ∧ buf.drop r1 = afterStop tail := by
  cases tail with
  | nil => exact ⟨r, -1, rfl, by simpa [afterStop] using h⟩
  | cons c t =>
    by_cases hc : c = eof
    · exact ⟨r + 1, 1, by simp [stopAt, hc], by simp [afterStop, hc, drop_succ_of_cons h]⟩
    · exact ⟨r, -1, by simp [stopAt, hc], by simp [afterStop, hc, h]⟩

theorem consumeSpace_st (buf : List Char) (r : Nat) (l : Int) :
    (st buf r l).consumeSpace =
      some (stopAt buf (r + ((buf.drop r).takeWhile isSpace).length)
        ((buf.drop r).dropWhile isSpace)) := by
  unfold Scanner.consumeSpace
  rw [st_fuel]
  exact consumeSpaceLoop_spec buf (buf.drop r) _ r l
    (Nat.lt_succ_of_le (List.length_drop r buf ▸ Nat.sub_le _ _)) rfl

theorem readNumbers_st (buf : List Char) (r : Nat) :
    (st buf (r + 1) 1).readNumbers =
      some (String.mk ((buf.drop r).takeWhile isNumber),
        stopAt buf (r + ((buf.drop r).takeWhile isNumber).length)
          ((buf.drop r).dropWhile isNumber)) := by
  unfold Scanner.readNumbers
  rw [st_fuel, unread_after_read]
  have h := readNumbersLoop_spec buf (buf.drop r) (buf.length + 1) r (-1) ""
    (Nat.lt_succ_of_le (List.length_drop r buf ▸ Nat.sub_le _ _)) rfl
  simpa using h

theorem readCharacters_st (buf : List Char) (r : Nat) :
    (st buf (r + 1) 1).readCharacters =
      some (String.mk ((buf.drop r).takeWhile isCharacter),
        stopAt buf (r + ((buf.drop r).takeWhile isCharacter).length)
          ((buf.drop r).dropWhile isCharacter)) := by
  unfold Scanner.readCharacters
  rw [st_fuel, unread_after_read]
  have h := readCharactersLoop_spec buf (buf.drop r) (buf.length + 1) r (-1) ""
    (Nat.lt_succ_of_le (List.length_drop r buf ▸ Nat.sub_le _ _)) rfl
  simpa using h

set_option maxHeartbeats 1000000 in
/-- `Scan` returns, and what it returns and leaves unread is `scanList` of the
runes that were unread before. -/
theorem Scan_eq_scanList (s : Scanner) :
    ∃ s1, s.Scan = some ((scanList s.rest).1, s1) ∧ s1.rest = (scanList s.rest).2
      ∧ s1.reader.buf = s.reader.buf := by
  obtain ⟨⟨buf, r, l⟩⟩ := s
  change ∃ s1, (st buf r l).Scan = some ((scanList (buf.drop r)).1, s1)
    ∧ s1.rest = (scanList (buf.drop r)).2 ∧ s1.reader.buf = buf
  obtain ⟨r0, l0, h0, hd0⟩ := stopAt_eq_st (drop_add_takeWhile isSpace (rfl : buf.drop r = _))
  unfold Scanner.Scan
  rw [consumeSpace_st, h0]
  unfold scanList
  generalize afterStop ((buf.drop r).dropWhile isSpace) = t2 at hd0
  cases t2 with
  | nil =>
    refine ⟨st buf r0 (-1), ?_, ?_, rfl⟩
    · have e1 : eof ≠ ';' := by decide
      have e2 : eof ≠ '+' := by decide
      have e3 : eof ≠ '*' := by decide
      have e4 : eof ≠ '-' := by decide
      simp [Read_nil l0 hd0, isNumber_eof, isCharacter_eof, e1, e2, e3, e4]
    · simpa [st_rest] using hd0
  | cons c cs =>
    have hcs : (st buf (r0 + 1) 1).rest = cs := drop_succ_of_cons hd0
    simp only [Read_cons l0 hd0]
    cases hn : isNumber c with
    | true =>
      refine ⟨stopAt buf (r0 + ((c :: cs).takeWhile isNumber).length)
        ((c :: cs).dropWhile isNumber), ?_, ?_, ?_⟩
      · simp only [if_true, readNumbers_st, hd0]
      · simp only [if_true]
        exact stopAt_rest (drop_add_takeWhile isNumber hd0)
      · exact stopAt_buf _ _ _
    | false =>
      cases hch : isCharacter c with
      | true =>
        refine ⟨stopAt buf (r0 + ((c :: cs).takeWhile isCharacter).length)
          ((c :: cs).dropWhile isCharacter), ?_, ?_, ?_⟩
        · simp only [Bool.false_eq_true, if_true, if_false, readCharacters_st, hd0]
        · simp only [Bool.false_eq_true, if_true, if_false]
          exact stopAt_rest (drop_add_takeWhile isCharacter hd0)
        · exact stopAt_buf _ _ _
      | false =>
        refine ⟨st buf (r0 + 1) 1, ?_, ?_, rfl⟩
        · simp only [Bool.false_eq_true, if_false]
          split_ifs <;> simp only []
        · simp only [Bool.false_eq_true, if_false]
          rw [hcs]
          split_ifs <;> simp only []

theorem Scan_isSome (s : Scanner) : s.Scan.isSome = true := by
  obtain ⟨s1, h, _⟩ := Scan_eq_scanList s
  simp [h]

/-! ## Facts about `scanList` -/

theorem afterStop_suffix (t : List Char) : afterStop t <:+ t := by
  cases t with
  | nil => exact List.suffix_refl _
  | cons c cs =>
    by_cases hc : c = eof
    · simp [afterStop, hc]
    · simp [afterStop, hc]

theorem afterStop_of_not_mem {t : List Char} (h : ∀ c ∈ t, c ≠ eof) : afterStop t = t := by
  cases t with
  | nil => rfl
  | cons c cs => simp [afterStop, h c (List.mem_cons_self c cs)]

set_option maxHeartbeats 1000000 in
/-- The runes `scanList` leaves unread, without the token. -/
theorem scanList_snd (rem : List Char) :
    (scanList rem).2 =
      match afterStop (rem.dropWhile isSpace) with
      | [] => []
      | c :: cs =>
        if isNumber c then afterStop ((c :: cs).dropWhile isNumber)
        else if isCharacter c then afterStop ((c :: cs).dropWhile isCharacter)
        else cs := by
  unfold scanList
  split
  · rfl
  · split_ifs <;> simp only []

set_option maxHeartbeats 1000000 in
/-- The token kind is `EOF` only at the end of the stream or at a rune equal
to `eof`. -/
theorem scanList_EOF {rem : List Char} (h : (scanList rem).1.1 = EOF) :
    afterStop (rem.dropWhile isSpace) = [] ∨
      ∃ cs, afterStop (rem.dropWhile isSpace) = eof :: cs := by
  unfold scanList at h
  split at h
  · left; assumption
  · rename_i c cs hcs
    right
    refine ⟨cs, ?_⟩
    split_ifs at h with h1 h2 h3 h4 h5 h6 h7
    · exact absurd h (show NUMBER ≠ EOF by decide)
    · exact absurd h (show TEXT ≠ EOF by decide)
    · exact absurd h (show SEMICOLON ≠ EOF by decide)
    · exact absurd h (show PLUS ≠ EOF by decide)
    · exact absurd h (show MULTIPLY ≠ EOF by decide)
    · exact absurd h (show MINUS ≠ EOF by decide)
    · rw [hcs, h7]
    · exact absurd h (show DQUOTE ≠ EOF by decide)
    · exact absurd h (show SQUOTE ≠ EOF by decide)
    · exact absurd h (show EQUAL ≠ EOF by decide)
    · exact absurd h (show ILLEGAL ≠ EOF by decide)

theorem scanList_nil : scanList [] = ((EOF, ""), []) := rfl

theorem scanList_suffix (rem : List Char) : (scanList rem).2 <:+ rem := by
  rw [scanList_snd]
  have h1 : afterStop (rem.dropWhile isSpace) <:+ rem :=
    (afterStop_suffix _).trans (List.dropWhile_suffix _)
  split
  · exact List.nil_suffix
  · rename_i c cs hcs
    rw [hcs] at h1
    split_ifs
    · exact ((afterStop_suffix _).trans (List.dropWhile_suffix _)).trans h1
    · exact ((afterStop_suffix _).trans (List.dropWhile_suffix _)).trans h1
    · exact (List.suffix_cons c cs).trans h1

theorem scanList_progress {rem : List Char} (h : (scanList rem).1.1 ≠ EOF) :
    (scanList rem).2.length < rem.length := by
  have h1 : afterStop (rem.dropWhile isSpace) <:+ rem :=
    (afterStop_suffix _).trans (List.dropWhile_suffix _)
  rw [scanList_snd]
  split
  · rename_i hnil
    exfalso
    apply h
    unfold scanList
    rw [hnil]
  · rename_i c cs hcs
    rw [hcs] at h1
    have hlen : cs.length < rem.length := by
      have := h1.length_le
      simp at this
      omega
    split_ifs with hn hch
    · have h2 : afterStop ((c :: cs).dropWhile isNumber) <:+ cs := by
        rw [List.dropWhile_cons_of_pos hn]
        exact (afterStop_suffix _).trans (List.dropWhile_suffix _)
      exact Nat.lt_of_le_of_lt h2.length_le hlen
    · have h2 : afterStop ((c :: cs).dropWhile isCharacter) <:+ cs := by
        rw [List.dropWhile_cons_of_pos hch]
        exact (afterStop_suffix _).trans (List.dropWhile_suffix _)
      exact Nat.lt_of_le_of_lt h2.length_le hlen
    · exact hlen

/-! ## Repeated calls -/

theorem ScanN_eq_scanListN (n : Nat) :
    ∀ s : Scanner, ∃ s1, s.ScanN n = some ((scanListN n s.rest).1, s1)
      ∧ s1.rest = (scanListN n s.rest).2 ∧ s1.reader.buf = s.reader.buf := by
  induction n with
  | zero => intro s; exact ⟨s, rfl, rfl, rfl⟩
  | succ n ih =>
    intro s
    obtain ⟨s1, h1, hr1, hb1⟩ := Scan_eq_scanList s
    obtain ⟨s2, h2, hr2, hb2⟩ := ih s1
    refine ⟨s2, ?_, ?_, hb2.trans hb1⟩
    · simp only [Scanner.ScanN, h1, h2, scanListN, hr1]
    · simp only [scanListN, hr2, hr1]

theorem ScanAt_eq_scanList (n : Nat) (s : Scanner) :
    s.ScanAt n = some (scanList (scanListN n s.rest).2).1 := by
  obtain ⟨s1, h1, hr1, _⟩ := ScanN_eq_scanListN n s
  obtain ⟨s2, h2, _, _⟩ := Scan_eq_scanList s1
  simp only [Scanner.ScanAt, h1, h2, hr1]

theorem scanListN_succ_snd (n : Nat) :
    ∀ rem : List Char, (scanListN (n + 1) rem).2 = (scanList (scanListN n rem).2).2 := by
  induction n with
  | zero => intro rem; rfl
  | succ n ih =>
    intro rem
    have h := ih (scanList rem).2
    simp only [scanListN] at h ⊢
    exact h

theorem scanListN_suffix (n : Nat) (rem : List Char) : (scanListN n rem).2 <:+ rem := by
  induction n with
  | zero => exact List.suffix_refl _
  | succ n ih =>
    rw [scanListN_succ_snd]
    exact (scanList_suffix _).trans ih

theorem scanList_of_stop_nil {rem : List Char}
    (h : afterStop (rem.dropWhile isSpace) = []) : scanList rem = ((EOF, ""), []) := by
  unfold scanList
  rw [h]

/-- On a stream without a rune equal to `eof`, `EOF` is returned only when the
stream is used up. -/
theorem scanList_EOF_of_not_mem {rem : List Char} (hN : ∀ c ∈ rem, c ≠ eof)
    (h : (scanList rem).1.1 = EOF) : scanList rem = ((EOF, ""), []) := by
  have hsub : ∀ c ∈ rem.dropWhile isSpace, c ≠ eof :=
    fun c hc => hN c ((List.dropWhile_suffix _).subset hc)
  rcases scanList_EOF h with h1 | ⟨cs, h1⟩
  · exact scanList_of_stop_nil h1
  · rw [afterStop_of_not_mem hsub] at h1
    exact absurd rfl (hsub eof (by rw [h1]; exact List.mem_cons_self _ _))

theorem scanListN_after_end {rem : List Char} {n : Nat}
    (h : scanList (scanListN n rem).2 = ((EOF, ""), [])) :
    ∀ k, scanList (scanListN (n + k) rem).2 = ((EOF, ""), []) := by
  intro k
  induction k with
  | zero => exact h
  | succ k ih =>
    have h1 : n + (k + 1) = (n + k) + 1 := rfl
    rw [h1, scanListN_succ_snd, ih]
    rfl

theorem scanListN_reaches_EOF :
    ∀ (k : Nat) (rem : List Char), rem.length ≤ k →
      ∃ n, n ≤ rem.length ∧ (scanList (scanListN n rem).2).1.1 = EOF := by
  intro k
  induction k with
  | zero =>
    intro rem hk
    have hnil : rem = [] := List.length_eq_zero.mp (Nat.le_zero.mp hk)
    subst hnil
    exact ⟨0, Nat.le_refl _, rfl⟩
  | succ k ih =>
    intro rem hk
    by_cases h : (scanList rem).1.1 = EOF
    · exact ⟨0, Nat.zero_le _, h⟩
    · have hlt := scanList_progress h
      obtain ⟨n, hn, hE⟩ := ih (scanList rem).2 (by omega)
      exact ⟨n + 1, by omega, hE⟩

/-! ## The claims -/

/-- C1, counterexample.  Over the input U+0000 U+0000 `a` the first call of
`Scan` returns `(EOF, "")` and the second call returns `(TEXT, "a")`: a kind
`EOF` has been returned and a later call returns another kind. -/
theorem C1_counterexample :
    (NewReader [eof, eof, 'a']).ScanAt 0 = some (EOF, "") ∧
      (NewReader [eof, eof, 'a']).ScanAt 1 = some (TEXT, "a") ∧ TEXT ≠ EOF := by
  decide

/-- C1, amended.  For every input that contains no rune U+0000: once a call of
`Scan` on a fresh scanner over that input has returned kind `EOF`, that call and
every later call on the same scanner return `(EOF, "")`. -/
theorem C1_EOF_idempotent (input : List Char) (n m : Nat) (lex : String)
    (hN : ∀ c ∈ input, c ≠ eof)
    (hE : (NewReader input).ScanAt n = some (EOF, lex)) (hnm : n ≤ m) :
    (NewReader input).ScanAt m = some (EOF, "") := by
  have hrest : (NewReader input).rest = input := rfl
  rw [ScanAt_eq_scanList, hrest] at hE ⊢
  have hkind : (scanList (scanListN n input).2).1.1 = EOF := by
    have := Option.some.inj hE
    rw [this]
  have hNn : ∀ c ∈ (scanListN n input).2, c ≠ eof :=
    fun c hc => hN c ((scanListN_suffix n input).subset hc)
  have hend := scanListN_after_end (scanList_EOF_of_not_mem hNn hkind) (m - n)
  rw [Nat.add_sub_cancel' hnm] at hend
  rw [hend]

/-- C1, instance: over the input `a` the second call returns `EOF`, and so
does the fifth. -/
theorem C1_EOF_idempotent_witness :
    (∀ c ∈ ['a'], c ≠ eof) ∧ (NewReader ['a']).ScanAt 1 = some (EOF, "") ∧ 1 ≤ 4 ∧
      (NewReader ['a']).ScanAt 4 = some (EOF, "") :=
  ⟨by decide, by decide, by decide,
    C1_EOF_idempotent ['a'] 1 4 "" (by decide) (by decide) (by decide)⟩

/-- C2.  Over every input, one of the first `input.length + 1` calls of `Scan`
on a fresh scanner returns kind `EOF`: the calls cannot go on returning other
kinds for ever. -/
theorem C2_reaches_EOF (input : List Char) :
    ∃ n, n ≤ input.length ∧ ∃ lex, (NewReader input).ScanAt n = some (EOF, lex) := by
  obtain ⟨n, hn, hE⟩ := scanListN_reaches_EOF input.length input (Nat.le_refl _)
  refine ⟨n, hn, (scanList (scanListN n input).2).1.2, ?_⟩
  have hrest : (NewReader input).rest = input := rfl
  rw [ScanAt_eq_scanList, hrest, ← hE]

theorem take_takeWhile_length (p : Char → Bool) (rem : List Char) :
    rem.take (rem.takeWhile p).length = rem.takeWhile p := by
  have h : (rem.takeWhile p ++ rem.dropWhile p).take (rem.takeWhile p).length
      = rem.takeWhile p := List.take_left _ _
  rwa [List.takeWhile_append_dropWhile] at h

theorem stopAt_of_not_mem {tail : List Char} (buf : List Char) (r : Nat)
    (h : ∀ c ∈ tail, c ≠ eof) : stopAt buf r tail = st buf r (-1) := by
  cases tail with
  | nil => rfl
  | cons c cs => simp [stopAt, h c (List.mem_cons_self c cs)]

theorem skipped_st {buf : List Char} {r : Nat} (l : Int)
    (hN : ∀ c ∈ buf.drop r, c ≠ eof) :
    (st buf r l).skipped = some ((buf.drop r).takeWhile isSpace) := by
  have hsub : ∀ c ∈ (buf.drop r).dropWhile isSpace, c ≠ eof :=
    fun c hc => hN c ((List.dropWhile_suffix _).subset hc)
  unfold Scanner.skipped
  rw [consumeSpace_st, stopAt_of_not_mem _ _ hsub]
  simp only [Scanner.consumedUpTo, st, Nat.add_sub_cancel_left]
  rw [take_takeWhile_length]

theorem scanList_punctuation {rem : List Char} {c : Char} {cs : List Char}
    (h : afterStop (rem.dropWhile isSpace) = c :: cs) (hc : c ∈ punctuation) :
    ∃ tk, tk ≠ EOF ∧ scanList rem = ((tk, String.singleton c), cs) := by
  unfold scanList
  rw [h]
  simp only [punctuation, List.mem_cons, List.mem_singleton, List.not_mem_nil, or_false] at hc
  rcases hc with hc | hc | hc | hc | hc | hc | hc <;> subst hc
  · exact ⟨SEMICOLON, by decide, rfl⟩
  · exact ⟨PLUS, by decide, rfl⟩
  · exact ⟨MULTIPLY, by decide, rfl⟩
  · exact ⟨MINUS, by decide, rfl⟩
  · exact ⟨DQUOTE, by decide, rfl⟩
  · exact ⟨SQUOTE, by decide, rfl⟩
  · exact ⟨EQUAL, by decide, rfl⟩

theorem classified_ne_eof {c : Char} (h : classified c) : c ≠ eof := by
  intro hc
  subst hc
  revert h
  decide

theorem scanList_split {rem : List Char} (hC : ∀ c ∈ rem, classified c) :
    ((scanList rem).1.1 = EOF → rem.takeWhile isSpace = rem) ∧
      ((scanList rem).1.1 ≠ EOF →
        rem.takeWhile isSpace ++ (scanList rem).1.2.data ++ (scanList rem).2 = rem) := by
  have hsplit := List.takeWhile_append_dropWhile isSpace rem
  have hsuf : rem.dropWhile isSpace <:+ rem := List.dropWhile_suffix _
  have hN : ∀ c ∈ rem.dropWhile isSpace, c ≠ eof :=
    fun c hc => classified_ne_eof (hC c (hsuf.subset hc))
  have hstop := afterStop_of_not_mem hN
  cases ht : rem.dropWhile isSpace with
  | nil =>
    rw [ht] at hsplit
    rw [scanList_of_stop_nil (hstop.trans ht)]
    refine ⟨fun _ => by simpa using hsplit, fun h => absurd rfl h⟩
  | cons c cs =>
    rw [ht] at hsplit hN hsuf
    have hcC : classified c := hC c (hsuf.subset (List.mem_cons_self c cs))
    have hsp : isSpace c = false := by
      have h := List.head_dropWhile_not isSpace rem (by rw [ht]; simp)
      simpa [ht] using h
    cases hn : isNumber c with
    | true =>
      have hN2 : ∀ x ∈ (c :: cs).dropWhile isNumber, x ≠ eof :=
        fun x hx => hN x ((List.dropWhile_suffix _).subset hx)
      have hS : scanList rem = ((NUMBER, String.mk ((c :: cs).takeWhile isNumber)),
          (c :: cs).dropWhile isNumber) := by
        unfold scanList
        rw [hstop, ht]
        simp only [hn, if_true, afterStop_of_not_mem hN2]
      rw [hS]
      refine ⟨fun h => absurd h (show NUMBER ≠ EOF by decide), fun _ => ?_⟩
      simp only [List.append_assoc, List.takeWhile_append_dropWhile, hsplit]
    | false =>
      cases hch : isCharacter c with
      | true =>
        have hN2 : ∀ x ∈ (c :: cs).dropWhile isCharacter, x ≠ eof :=
          fun x hx => hN x ((List.dropWhile_suffix _).subset hx)
        have hS : scanList rem = ((TEXT, String.mk ((c :: cs).takeWhile isCharacter)),
            (c :: cs).dropWhile isCharacter) := by
          unfold scanList
          rw [hstop, ht]
          simp only [hn, hch, Bool.false_eq_true, if_true, if_false, afterStop_of_not_mem hN2]
        rw [hS]
        refine ⟨fun h => absurd h (show TEXT ≠ EOF by decide), fun _ => ?_⟩
        simp only [List.append_assoc, List.takeWhile_append_dropWhile, hsplit]
      | false =>
        have hp : c ∈ punctuation := by
          rcases hcC with h | h | h | h
          · rw [hsp] at h; exact absurd h (by decide)
          · rw [hn] at h; exact absurd h (by decide)
          · rw [hch] at h; exact absurd h (by decide)
          · exact h
        obtain ⟨tk, htk, hS⟩ := scanList_punctuation (hstop.trans ht) hp
        rw [hS]
        refine ⟨fun h => absurd h htk, fun _ => ?_⟩
        simpa [String.singleton] using hsplit

theorem reassemble_st (buf : List Char) :
    ∀ (fuel r : Nat) (l : Int), (∀ c ∈ buf.drop r, classified c) →
      (buf.drop r).length < fuel →
      (st buf r l).reassemble fuel = some (buf.drop r) := by
  intro fuel
  induction fuel with
  | zero => intro r l _ hf; simp at hf
  | succ f ih =>
    intro r l hC hf
    have hN : ∀ c ∈ buf.drop r, c ≠ eof := fun c hc => classified_ne_eof (hC c hc)
    obtain ⟨s1, hS, hr1, hb1⟩ := Scan_eq_scanList (st buf r l)
    rw [st_rest] at hS hr1
    have hs1 : s1 = st buf s1.reader.r s1.reader.lastRuneSize := by
      have h := s1.eq_st
      rw [hb1] at h
      exact h
    have hd1 : buf.drop s1.reader.r = (scanList (buf.drop r)).2 := by
      rw [← hr1, ← st_rest buf s1.reader.r s1.reader.lastRuneSize, ← hs1]
    obtain ⟨hE, hT⟩ := scanList_split hC
    have hprog := @scanList_progress (buf.drop r)
    rcases hsl : scanList (buf.drop r) with ⟨⟨tkn, vl⟩, rem1⟩
    rw [hsl] at hS hd1 hE hT hprog
    simp only at hS hd1 hE hT hprog
    unfold Scanner.reassemble
    rw [skipped_st l hN, hS]
    by_cases hk : tkn = EOF
    · simp only [hk, if_true, hE hk]
    · have hC1 : ∀ c ∈ buf.drop s1.reader.r, classified c := by
        intro c hc
        rw [hd1] at hc
        have hsuf := scanList_suffix (buf.drop r)
        rw [hsl] at hsuf
        exact hC c (hsuf.subset hc)
      have hlen : (buf.drop s1.reader.r).length < f := by
        rw [hd1]
        have := hprog hk
        omega
      have h2 := ih s1.reader.r s1.reader.lastRuneSize hC1 hlen
      rw [← hs1, hd1] at h2
      simp only [hk, if_false, h2, hT hk]

/-- C3, counterexample.  Over the one-rune input `@` the calls of `Scan` return
`(ILLEGAL, "")` and then `(EOF, "")`, no white space is skipped, and putting the
pieces together gives the empty sequence, not the input.  In the same way the
rune U+0000 that ends the run in the input `1` U+0000 is lost. -/
theorem C3_counterexample :
    (NewReader ['@']).ScanAt 0 = some (ILLEGAL, "") ∧
      (NewReader ['@']).ScanAt 1 = some (EOF, "") ∧
      (NewReader ['@']).reassemble 2 = some [] ∧
      (NewReader ['@']).reassemble 2 ≠ some ['@'] ∧
      (NewReader ['1', eof]).reassemble 3 = some ['1'] := by
  decide

/-- C3, amended.  For every input whose runes are all white space, ASCII
digits, ASCII letters or one of the seven punctuation runes: calling `Scan` up to
the first `EOF` and concatenating, in order, the runes skipped before each token
and the token's lexeme, and at the end the runes skipped by the call that returns
`EOF`, gives back the input exactly. -/
theorem C3_reassemble (input : List Char) (hC : ∀ c ∈ input, classified c) :
    (NewReader input).reassemble (input.length + 1) = some input :=
  reassemble_st input (input.length + 1) 0 (-1) hC (Nat.lt_succ_self _)

/-- C3, instance: the input `var age = 2 * 3` followed by a blank. -/
theorem C3_reassemble_witness :
    (∀ c ∈ "var age = 2 * 3 ".data, classified c) ∧
      (NewReader "var age = 2 * 3 ".data).reassemble ("var age = 2 * 3 ".data.length + 1)
        = some "var age = 2 * 3 ".data :=
  ⟨by decide, C3_reassemble "var age = 2 * 3 ".data (by decide)⟩

/-! ## Character classes and runs -/

theorem isNumber_iff (c : Char) : isNumber c = true ↔ 48 ≤ c.toNat ∧ c.toNat ≤ 57 := by
  simp only [isNumber, ge_iff_le, Bool.and_eq_true, decide_eq_true_eq, Char.le_def]
  rfl

theorem isCharacter_iff (c : Char) :
    isCharacter c = true ↔ (97 ≤ c.toNat ∧ c.toNat ≤ 122) ∨ (65 ≤ c.toNat ∧ c.toNat ≤ 90) := by
  simp only [isCharacter, ge_iff_le, Bool.and_eq_true, Bool.or_eq_true, decide_eq_true_eq,
    Char.le_def]
  rfl

theorem isSpace_iff (c : Char) :
    isSpace c = true ↔ c = ' ' ∨ c = '\n' ∨ c = '\r' ∨ c = '\t' := by
  have h : (String.singleton c == " ") = true ↔ c = ' ' := by
    rw [beq_iff_eq]
    constructor
    · intro h
      have := congrArg String.data h
      simpa [String.singleton] using this
    · intro h; subst h; rfl
  simp only [isSpace, Bool.or_eq_true, h, beq_iff_eq, or_assoc]

theorem isSpace_toNat {c : Char} (h : isSpace c = true) :
    c.toNat = 32 ∨ c.toNat = 10 ∨ c.toNat = 13 ∨ c.toNat = 9 := by
  rw [isSpace_iff] at h
  rcases h with h | h | h | h <;> subst h <;> decide

theorem isSpace_of_isNumber {c : Char} (h : isNumber c = true) : isSpace c = false := by
  rw [isNumber_iff] at h
  cases hs : isSpace c with
  | false => rfl
  | true => have := isSpace_toNat hs; omega

theorem isSpace_of_isCharacter {c : Char} (h : isCharacter c = true) : isSpace c = false := by
  rw [isCharacter_iff] at h
  cases hs : isSpace c with
  | false => rfl
  | true => have := isSpace_toNat hs; omega

theorem isNumber_of_isCharacter {c : Char} (h : isCharacter c = true) : isNumber c = false := by
  rw [isCharacter_iff] at h
  cases hs : isNumber c with
  | false => rfl
  | true => rw [isNumber_iff] at hs; omega

theorem ne_eof_of_isNumber {c : Char} (h : isNumber c = true) : c ≠ eof := by
  intro hc
  rw [hc, isNumber_eof] at h
  exact absurd h (by decide)

theorem ne_eof_of_isCharacter {c : Char} (h : isCharacter c = true) : c ≠ eof := by
  intro hc
  rw [hc, isCharacter_eof] at h
  exact absurd h (by decide)

theorem dropWhile_append_all (p : Char → Bool) {ws : List Char} (l : List Char)
    (h : ∀ c ∈ ws, p c = true) : (ws ++ l).dropWhile p = l.dropWhile p := by
  induction ws with
  | nil => rfl
  | cons w ws ih =>
    have hw : p w = true := h w (List.mem_cons_self w ws)
    rw [List.cons_append, List.dropWhile_cons_of_pos hw]
    exact ih (fun c hc => h c (List.mem_cons_of_mem w hc))

theorem takeWhile_append_all (p : Char → Bool) {run : List Char} (l : List Char)
    (h : ∀ c ∈ run, p c = true) : (run ++ l).takeWhile p = run ++ l.takeWhile p := by
  induction run with
  | nil => rfl
  | cons w ws ih =>
    have hw : p w = true := h w (List.mem_cons_self w ws)
    rw [List.cons_append, List.takeWhile_cons_of_pos hw,
      ih (fun c hc => h c (List.mem_cons_of_mem w hc))]
    rfl

theorem takeWhile_longest (p : Char → Bool) :
    ∀ (q l : List Char), q <+: l → (∀ c ∈ q, p c = true) → q <+: l.takeWhile p := by
  intro q
  induction q with
  | nil => intro l _ _; exact List.nil_prefix
  | cons a q ih =>
    intro l hl hq
    obtain ⟨t, ht⟩ := hl
    subst ht
    have ha : p a = true := hq a (List.mem_cons_self a q)
    rw [List.cons_append, List.takeWhile_cons_of_pos ha]
    exact (List.cons_prefix_cons).mpr ⟨rfl, ih (q ++ t) ( List.prefix_append q t)
      (fun c hc => hq c (List.mem_cons_of_mem a hc))⟩

theorem takeWhile_all_mem (p : Char → Bool) (l : List Char) :
    ∀ c ∈ l.takeWhile p, p c = true := by
  intro c hc
  exact List.mem_takeWhile_imp hc

/-- `Scan` at a digit, the white space in front of it already dropped. -/
theorem scanList_number {rem rest : List Char} {d : Char}
    (h : rem.dropWhile isSpace = d :: rest) (hd : isNumber d = true) :
    scanList rem = ((NUMBER, String.mk ((d :: rest).takeWhile isNumber)),
      afterStop ((d :: rest).dropWhile isNumber)) := by
  unfold scanList
  rw [h]
  simp only [afterStop, ne_eof_of_isNumber hd, if_false, hd, if_true]

/-- `Scan` at a letter, the white space in front of it already dropped. -/
theorem scanList_text {rem rest : List Char} {d : Char}
    (h : rem.dropWhile isSpace = d :: rest) (hd : isCharacter d = true) :
    scanList rem = ((TEXT, String.mk ((d :: rest).takeWhile isCharacter)),
      afterStop ((d :: rest).dropWhile isCharacter)) := by
  unfold scanList
  rw [h]
  simp only [afterStop, ne_eof_of_isCharacter hd, if_false, hd, if_true,
    isNumber_of_isCharacter hd, Bool.false_eq_true]

theorem dropWhile_space_run {ws rest : List Char} {d : Char}
    (hws : ∀ c ∈ ws, isSpace c = true) (hd : isSpace d = false) :
    (ws ++ d :: rest).dropWhile isSpace = d :: rest := by
  rw [dropWhile_append_all isSpace _ hws, List.dropWhile_cons_of_neg (by simp [hd])]

theorem Read_of_rest {s : Scanner} {c : Char} {cs : List Char} (h : s.rest = c :: cs) :
    s.Read.1 = c := by
  obtain ⟨⟨buf, r, l⟩⟩ := s
  have h2 : buf.drop r = c :: cs := h
  have h3 := Read_cons l h2
  exact congrArg Prod.fst h3

theorem takeWhile_run_stop (p : Char → Bool) {run t : List Char} {r : Char}
    (hrun : ∀ c ∈ run, p c = true) (hr : p r = false) :
    (run ++ r :: t).takeWhile p = run ∧ (run ++ r :: t).dropWhile p = r :: t := by
  constructor
  · rw [takeWhile_append_all p _ hrun, List.takeWhile_cons_of_neg (by simp [hr])]
    simp
  · rw [dropWhile_append_all p _ hrun, List.dropWhile_cons_of_neg (by simp [hr])]

/-- C4.  When the unread runes are white space `ws`, then a digit `d`, then
`rest`, `Scan` returns kind `NUMBER` with the longest run of digits at the start
of `d :: rest` as lexeme: the lexeme is not empty, all its runes are digits, it
stands at the start of `d :: rest`, and every run of digits that stands at the
start of `d :: rest` is the lexeme or a shorter start of it. -/
theorem C4_number (s : Scanner) (ws rest : List Char) (d : Char)
    (hs : s.rest = ws ++ d :: rest) (hws : ∀ c ∈ ws, isSpace c = true)
    (hd : isNumber d = true) :
    ∃ s1, s.Scan = some ((NUMBER, String.mk ((d :: rest).takeWhile isNumber)), s1) ∧
      (d :: rest).takeWhile isNumber ≠ [] ∧
      (∀ c ∈ (d :: rest).takeWhile isNumber, isNumber c = true) ∧
      (d :: rest).takeWhile isNumber <+: d :: rest ∧
      ∀ q, q <+: d :: rest → (∀ c ∈ q, isNumber c = true) →
        q <+: (d :: rest).takeWhile isNumber := by
  obtain ⟨s1, hS, _, _⟩ := Scan_eq_scanList s
  rw [hs, scanList_number (dropWhile_space_run hws (isSpace_of_isNumber hd)) hd] at hS
  refine ⟨s1, hS, ?_, takeWhile_all_mem isNumber _, ?_,
    fun q => takeWhile_longest isNumber q (d :: rest)⟩
  · rw [List.takeWhile_cons_of_pos hd]
    exact List.cons_ne_nil _ _
  · exact ( List.takeWhile_prefix isNumber)

/-- C4, instance: two blanks and `12ab` give `(NUMBER, "12")`. -/
theorem C4_number_witness :
    (NewReader "  12ab".data).rest = [' ', ' '] ++ '1' :: ['2', 'a', 'b'] ∧
      (∀ c ∈ [' ', ' '], isSpace c = true) ∧ isNumber '1' = true ∧
      ∃ s1, (NewReader "  12ab".data).Scan
          = some ((NUMBER, String.mk (('1' :: ['2', 'a', 'b']).takeWhile isNumber)), s1) ∧
        ('1' :: ['2', 'a', 'b']).takeWhile isNumber ≠ [] ∧
        (∀ c ∈ ('1' :: ['2', 'a', 'b']).takeWhile isNumber, isNumber c = true) ∧
        ('1' :: ['2', 'a', 'b']).takeWhile isNumber <+: '1' :: ['2', 'a', 'b'] ∧
        ∀ q, q <+: '1' :: ['2', 'a', 'b'] → (∀ c ∈ q, isNumber c = true) →
          q <+: ('1' :: ['2', 'a', 'b']).takeWhile isNumber :=
  ⟨rfl, by decide, by decide,
    C4_number (NewReader "  12ab".data) [' ', ' '] ['2', 'a', 'b'] '1' rfl
      (by decide) (by decide)⟩

/-- C5.  When the unread runes are white space `ws`, then a letter `c`, then
`rest`, `Scan` returns kind `TEXT` with the longest run of letters at the start
of `c :: rest` as lexeme: the lexeme is not empty, all its runes are letters (so
none is a digit), it stands at the start of `c :: rest`, and every run of letters
that stands at the start of `c :: rest` is the lexeme or a shorter start of it. -/
theorem C5_text (s : Scanner) (ws rest : List Char) (c : Char)
    (hs : s.rest = ws ++ c :: rest) (hws : ∀ x ∈ ws, isSpace x = true)
    (hc : isCharacter c = true) :
    ∃ s1, s.Scan = some ((TEXT, String.mk ((c :: rest).takeWhile isCharacter)), s1) ∧
      (c :: rest).takeWhile isCharacter ≠ [] ∧
      (∀ x ∈ (c :: rest).takeWhile isCharacter,
        isCharacter x = true ∧ isNumber x = false ∧ x ≠ '_') ∧
      (c :: rest).takeWhile isCharacter <+: c :: rest ∧
      ∀ q, q <+: c :: rest → (∀ x ∈ q, isCharacter x = true) →
        q <+: (c :: rest).takeWhile isCharacter := by
  obtain ⟨s1, hS, _, _⟩ := Scan_eq_scanList s
  rw [hs, scanList_text (dropWhile_space_run hws (isSpace_of_isCharacter hc)) hc] at hS
  refine ⟨s1, hS, ?_, ?_, ?_, fun q => takeWhile_longest isCharacter q (c :: rest)⟩
  · rw [List.takeWhile_cons_of_pos hc]
    exact List.cons_ne_nil _ _
  · intro x hx
    have hx1 := takeWhile_all_mem isCharacter _ x hx
    refine ⟨hx1, isNumber_of_isCharacter hx1, ?_⟩
    intro hu
    subst hu
    exact absurd hx1 (by decide)
  · exact ( List.takeWhile_prefix isCharacter)

/-- C5, instance: a tab and `ab1c` give `(TEXT, "ab")`. -/
theorem C5_text_witness :
    (NewReader "\tab1c".data).rest = ['\t'] ++ 'a' :: ['b', '1', 'c'] ∧
      (∀ x ∈ ['\t'], isSpace x = true) ∧ isCharacter 'a' = true ∧
      ∃ s1, (NewReader "\tab1c".data).Scan
          = some ((TEXT, String.mk (('a' :: ['b', '1', 'c']).takeWhile isCharacter)), s1) ∧
        ('a' :: ['b', '1', 'c']).takeWhile isCharacter ≠ [] ∧
        (∀ x ∈ ('a' :: ['b', '1', 'c']).takeWhile isCharacter,
          isCharacter x = true ∧ isNumber x = false ∧ x ≠ '_') ∧
        ('a' :: ['b', '1', 'c']).takeWhile isCharacter <+: 'a' :: ['b', '1', 'c'] ∧
        ∀ q, q <+: 'a' :: ['b', '1', 'c'] → (∀ x ∈ q, isCharacter x = true) →
          q <+: ('a' :: ['b', '1', 'c']).takeWhile isCharacter :=
  ⟨rfl, by decide, by decide,
    C5_text (NewReader "\tab1c".data) ['\t'] ['b', '1', 'c'] 'a' rfl
      (by decide) (by decide)⟩

/-- C6, counterexample.  Over the input `1` U+0000 `a` the run of digits is
ended by the rune U+0000, which is not a digit; `Scan` returns `(NUMBER, "1")`
and leaves only `a` unread, so the rune that ended the run has been consumed and
the next call does not see it. -/
theorem C6_counterexample :
    isNumber eof = false ∧
      ((NewReader ['1', eof, 'a']).Scan).map (fun p => (p.1, p.2.rest))
        = some ((NUMBER, "1"), ['a']) ∧
      ['a'] ≠ [eof, 'a'] := by
  decide

/-- What `consumeSpace` leaves unread: the runes after the white space, without
the rune U+0000 if that is the rune at which the white space ends. -/
theorem consumeSpace_rest (s : Scanner) :
    ∃ s0, s.consumeSpace = some s0 ∧ s0.rest = afterStop (s.rest.dropWhile isSpace) := by
  obtain ⟨⟨buf, r, l⟩⟩ := s
  exact ⟨_, consumeSpace_st buf r l,
    stopAt_rest (drop_add_takeWhile isSpace (rfl : buf.drop r = _))⟩

/-- `Scan` at a digit, after the white space and a possible U+0000 in front of
it have been passed. -/
theorem scanList_number_stop {rem rest : List Char} {d : Char}
    (h : afterStop (rem.dropWhile isSpace) = d :: rest) (hd : isNumber d = true) :
    scanList rem = ((NUMBER, String.mk ((d :: rest).takeWhile isNumber)),
      afterStop ((d :: rest).dropWhile isNumber)) := by
  unfold scanList
  rw [h]
  simp only [hd, if_true]

/-- `Scan` at a letter, after the white space and a possible U+0000 in front of
it have been passed. -/
theorem scanList_text_stop {rem rest : List Char} {d : Char}
    (h : afterStop (rem.dropWhile isSpace) = d :: rest) (hd : isCharacter d = true) :
    scanList rem = ((TEXT, String.mk ((d :: rest).takeWhile isCharacter)),
      afterStop ((d :: rest).dropWhile isCharacter)) := by
  unfold scanList
  rw [h]
  simp only [hd, if_true, isNumber_of_isCharacter hd, Bool.false_eq_true, if_false]

/-- C6, amended.  In every scanner state: let the runes that `Scan` finds in
front of it, once `consumeSpace` has passed the white space (and the rune U+0000
if one ends the white space), be a non-empty run, then a rune `r`, then `t`.  If
the run consists of digits (of letters) and `r` is not a digit (not a letter) and
is not U+0000, `Scan` returns `NUMBER` (`TEXT`) with the run as lexeme and `r` is
not consumed: the runes unread after the call are `r` and all that follows it,
and the next read delivers `r`. -/
theorem C6_pushback (s : Scanner) (run t : List Char) (r : Char)
    (hs : afterStop (s.rest.dropWhile isSpace) = run ++ r :: t)
    (hrun : run ≠ []) (hr0 : r ≠ eof) :
    ((∀ c ∈ run, isNumber c = true) → isNumber r = false →
      ∃ s1, s.Scan = some ((NUMBER, String.mk run), s1) ∧ s1.rest = r :: t ∧ s1.Read.1 = r) ∧
    ((∀ c ∈ run, isCharacter c = true) → isCharacter r = false →
      ∃ s1, s.Scan = some ((TEXT, String.mk run), s1) ∧ s1.rest = r :: t ∧ s1.Read.1 = r) := by
  obtain ⟨s1, hS, hrest, _⟩ := Scan_eq_scanList s
  cases run with
  | nil => exact absurd rfl hrun
  | cons d run1 =>
    rw [List.cons_append] at hs
    constructor
    · intro hall hr
      have hd : isNumber d = true := hall d (List.mem_cons_self d run1)
      obtain ⟨h1, h2⟩ := takeWhile_run_stop isNumber (t := t) hall hr
      rw [scanList_number_stop hs hd] at hS hrest
      simp only [← List.cons_append, h1, h2, afterStop, hr0, if_false] at hS hrest
      exact ⟨s1, hS, hrest, Read_of_rest hrest⟩
    · intro hall hr
      have hd : isCharacter d = true := hall d (List.mem_cons_self d run1)
      obtain ⟨h1, h2⟩ := takeWhile_run_stop isCharacter (t := t) hall hr
      rw [scanList_text_stop hs hd] at hS hrest
      simp only [← List.cons_append, h1, h2, afterStop, hr0, if_false] at hS hrest
      exact ⟨s1, hS, hrest, Read_of_rest hrest⟩

/-- C6, instances: in U+0000 `12+` the U+0000 is passed by `consumeSpace` and the
`+` that ends the run `12` stays unread; in `12+3` likewise; in a blank and
`ab+3` the `+` that ends the run `ab` stays unread. -/
theorem C6_pushback_witness :
    (afterStop ((NewReader [eof, '1', '2', '+']).rest.dropWhile isSpace)
        = ['1', '2'] ++ '+' :: [] ∧
      ['1', '2'] ≠ [] ∧ '+' ≠ eof ∧ (∀ c ∈ ['1', '2'], isNumber c = true) ∧
      isNumber '+' = false ∧
      ∃ s1, (NewReader [eof, '1', '2', '+']).Scan
          = some ((NUMBER, String.mk ['1', '2']), s1) ∧
        s1.rest = '+' :: [] ∧ s1.Read.1 = '+') ∧
    (afterStop ((NewReader "12+3".data).rest.dropWhile isSpace) = ['1', '2'] ++ '+' :: ['3'] ∧
      ∃ s1, (NewReader "12+3".data).Scan = some ((NUMBER, String.mk ['1', '2']), s1) ∧
        s1.rest = '+' :: ['3'] ∧ s1.Read.1 = '+') ∧
    (afterStop ((NewReader " ab+3".data).rest.dropWhile isSpace) = ['a', 'b'] ++ '+' :: ['3'] ∧
      (∀ c ∈ ['a', 'b'], isCharacter c = true) ∧ isCharacter '+' = false ∧
      ∃ s1, (NewReader " ab+3".data).Scan = some ((TEXT, String.mk ['a', 'b']), s1) ∧
        s1.rest = '+' :: ['3'] ∧ s1.Read.1 = '+') :=
  ⟨⟨by decide, by decide, by decide, by decide, by decide,
      (C6_pushback (NewReader [eof, '1', '2', '+']) ['1', '2'] [] '+' (by decide)
        (by decide) (by decide)).1 (by decide) (by decide)⟩,
    ⟨by decide,
      (C6_pushback (NewReader "12+3".data) ['1', '2'] ['3'] '+' (by decide)
        (by decide) (by decide)).1 (by decide) (by decide)⟩,
    ⟨by decide, by decide, by decide,
      (C6_pushback (NewReader " ab+3".data) ['a', 'b'] ['3'] '+' (by decide)
        (by decide) (by decide)).2 (by decide) (by decide)⟩⟩

/-- C7.  For each of the seven punctuation runes, the first call of `Scan` on a
fresh scanner over that single rune returns the matching kind with the rune as
lexeme, and the second call returns `(EOF, "")`. -/
theorem C7_punctuation :
    ((NewReader [';']).ScanN 2).map Prod.fst = some [(SEMICOLON, ";"), (EOF, "")] ∧
    ((NewReader ['+']).ScanN 2).map Prod.fst = some [(PLUS, "+"), (EOF, "")] ∧
    ((NewReader ['*']).ScanN 2).map Prod.fst = some [(MULTIPLY, "*"), (EOF, "")] ∧
    ((NewReader ['-']).ScanN 2).map Prod.fst = some [(MINUS, "-"), (EOF, "")] ∧
    ((NewReader ['"']).ScanN 2).map Prod.fst = some [(DQUOTE, "\""), (EOF, "")] ∧
    ((NewReader ['\'']).ScanN 2).map Prod.fst = some [(SQUOTE, "'"), (EOF, "")] ∧
    ((NewReader ['=']).ScanN 2).map Prod.fst = some [(EQUAL, "="), (EOF, "")] := by
  decide

theorem scanList_illegal {c : Char} (hl : isCharacter c = false) (hd : isNumber c = false)
    (hp : c ∉ punctuation) (hs : isSpace c = false) (h0 : c ≠ eof) :
    scanList [c] = ((ILLEGAL, ""), []) := by
  simp only [punctuation, List.mem_cons, List.mem_singleton, List.not_mem_nil, or_false,
    not_or] at hp
  obtain ⟨p1, p2, p3, p4, p5, p6, p7⟩ := hp
  have hdrop : [c].dropWhile isSpace = [c] := List.dropWhile_cons_of_neg (by simp [hs])
  unfold scanList
  rw [hdrop]
  simp only [afterStop, h0, if_false, hd, hl, Bool.false_eq_true, p1, p2, p3, p4, p5, p6, p7]

/-- C8, counterexample.  The rune U+0000 is not a letter, not a digit, not a
punctuation rune and not white space, yet the first call of `Scan` over the
one-rune input U+0000 returns `(EOF, "")`, not `(ILLEGAL, "")`. -/
theorem C8_counterexample :
    isCharacter eof = false ∧ isNumber eof = false ∧ eof ∉ punctuation ∧
      isSpace eof = false ∧
      (NewReader [eof]).ScanAt 0 = some (EOF, "") ∧ (EOF, "") ≠ (ILLEGAL, "") := by
  decide

/-- C8, amended.  For every rune `c` other than U+0000 that is not a letter,
not a digit, not one of the seven punctuation runes and not white space, the
first call of `Scan` on a fresh scanner over the one-rune input `c` returns
`(ILLEGAL, "")` and leaves nothing unread, and the second call returns
`(EOF, "")`. -/
theorem C8_illegal (c : Char) (hl : isCharacter c = false) (hd : isNumber c = false)
    (hp : c ∉ punctuation) (hs : isSpace c = false) (h0 : c ≠ eof) :
    ∃ s1 s2, (NewReader [c]).Scan = some ((ILLEGAL, ""), s1) ∧ s1.rest = [] ∧
      s1.Scan = some ((EOF, ""), s2) := by
  obtain ⟨s1, hS1, hr1, _⟩ := Scan_eq_scanList (NewReader [c])
  have hrest : (NewReader [c]).rest = [c] := rfl
  rw [hrest, scanList_illegal hl hd hp hs h0] at hS1 hr1
  obtain ⟨s2, hS2, _, _⟩ := Scan_eq_scanList s1
  rw [hr1, scanList_nil] at hS2
  exact ⟨s1, s2, hS1, hr1, hS2⟩

/-- C8, instance: the rune `@`. -/
theorem C8_illegal_witness :
    isCharacter '@' = false ∧ isNumber '@' = false ∧ '@' ∉ punctuation ∧
      isSpace '@' = false ∧ '@' ≠ eof ∧
      ∃ s1 s2, (NewReader ['@']).Scan = some ((ILLEGAL, ""), s1) ∧ s1.rest = [] ∧
        s1.Scan = some ((EOF, ""), s2) :=
  ⟨by decide, by decide, by decide, by decide, by decide,
    C8_illegal '@' (by decide) (by decide) (by decide) (by decide) (by decide)⟩

/-- C9.  Seven calls of `Scan` over the input `var age = 2 * 3` return, in
order, `(TEXT, "var")`, `(TEXT, "age")`, `(EQUAL, "=")`, `(NUMBER, "2")`,
`(MULTIPLY, "*")`, `(NUMBER, "3")` and `(EOF, "")`. -/
theorem C9_example :
    ((NewReader "var age = 2 * 3".data).ScanN 7).map Prod.fst =
      some [(TEXT, "var"), (TEXT, "age"), (EQUAL, "="), (NUMBER, "2"), (MULTIPLY, "*"),
        (NUMBER, "3"), (EOF, "")] := by
  decide

theorem isCharacter_of_isNumber {c : Char} (h : isNumber c = true) : isCharacter c = false := by
  cases hc : isCharacter c with
  | false => rfl
  | true => rw [isNumber_of_isCharacter hc] at h; exact absurd h (by decide)

/-- C10.  For every non-empty run `L` of letters and every non-empty run `D` of
digits, three calls of `Scan` over the input `L ++ D` return `(TEXT, L)`,
`(NUMBER, D)` and `(EOF, "")`. -/
theorem C10_letters_then_digits (L D : List Char) (hL : L ≠ []) (hD : D ≠ [])
    (hLl : ∀ c ∈ L, isCharacter c = true) (hDd : ∀ c ∈ D, isNumber c = true) :
    ((NewReader (L ++ D)).ScanN 3).map Prod.fst =
      some [(TEXT, String.mk L), (NUMBER, String.mk D), (EOF, "")] := by
  obtain ⟨s3, hS, _, _⟩ := ScanN_eq_scanListN 3 (NewReader (L ++ D))
  have hrest : (NewReader (L ++ D)).rest = L ++ D := rfl
  rw [hS, hrest]
  cases L with
  | nil => exact absurd rfl hL
  | cons l L1 =>
    cases D with
    | nil => exact absurd rfl hD
    | cons d D1 =>
      have hl : isCharacter l = true := hLl l (List.mem_cons_self l L1)
      have hd : isNumber d = true := hDd d (List.mem_cons_self d D1)
      have h1 : scanList (l :: L1 ++ d :: D1) = ((TEXT, String.mk (l :: L1)), d :: D1) := by
        obtain ⟨t1, t2⟩ := takeWhile_run_stop isCharacter (t := D1) hLl
          (isCharacter_of_isNumber hd)
        rw [List.cons_append, scanList_text
          (List.dropWhile_cons_of_neg (by simp [isSpace_of_isCharacter hl])) hl]
        simp only [← List.cons_append, t1, t2, afterStop, ne_eof_of_isNumber hd, if_false]
      have h2 : scanList (d :: D1) = ((NUMBER, String.mk (d :: D1)), []) := by
        rw [scanList_number (List.dropWhile_cons_of_neg (by simp [isSpace_of_isNumber hd])) hd]
        have t1 : (d :: D1).takeWhile isNumber = d :: D1 :=
          List.takeWhile_eq_self_iff.mpr hDd
        have t2 : (d :: D1).dropWhile isNumber = [] :=
          List.dropWhile_eq_nil_iff.mpr hDd
        rw [t1, t2]
        rfl
      simp only [scanListN, h1, h2, scanList_nil, Option.map_some']

/-- C10, instance: the input `a1`. -/
theorem C10_letters_then_digits_witness :
    ['a'] ≠ [] ∧ ['1'] ≠ [] ∧ (∀ c ∈ ['a'], isCharacter c = true) ∧
      (∀ c ∈ ['1'], isNumber c = true) ∧
      ((NewReader (['a'] ++ ['1'])).ScanN 3).map Prod.fst =
        some [(TEXT, String.mk ['a']), (NUMBER, String.mk ['1']), (EOF, "")] :=
  ⟨by decide, by decide, by decide, by decide,
    C10_letters_then_digits ['a'] ['1'] (by decide) (by decide) (by decide) (by decide)⟩

/-! ## White space, progress and the remaining claims -/

theorem scanList_append_space {ws : List Char} (rem : List Char)
    (hws : ∀ c ∈ ws, isSpace c = true) : scanList (ws ++ rem) = scanList rem := by
  unfold scanList
  rw [dropWhile_append_all isSpace rem hws]

/-- C11.  For every input that consists of white space only, the empty input
included, the first call of `Scan` on a fresh scanner returns `(EOF, "")` and
leaves nothing unread. -/
theorem C11_whitespace_only (input : List Char) (hws : ∀ c ∈ input, isSpace c = true) :
    ∃ s1, (NewReader input).Scan = some ((EOF, ""), s1) ∧ s1.rest = [] := by
  obtain ⟨s1, hS, hr, _⟩ := Scan_eq_scanList (NewReader input)
  have hrest : (NewReader input).rest = input := rfl
  have hnil : scanList input = ((EOF, ""), []) := by
    apply scanList_of_stop_nil
    rw [List.dropWhile_eq_nil_iff.mpr hws]
    rfl
  rw [hrest, hnil] at hS hr
  exact ⟨s1, hS, hr⟩

/-- C11, instances: a blank, a tab, a carriage return and a line feed; and the
empty input. -/
theorem C11_whitespace_only_witness :
    ((∀ c ∈ [' ', '\t', '\r', '\n'], isSpace c = true) ∧
      ∃ s1, (NewReader [' ', '\t', '\r', '\n']).Scan = some ((EOF, ""), s1) ∧ s1.rest = []) ∧
    ((∀ c ∈ ([] : List Char), isSpace c = true) ∧
      ∃ s1, (NewReader []).Scan = some ((EOF, ""), s1) ∧ s1.rest = []) :=
  ⟨⟨by decide, C11_whitespace_only [' ', '\t', '\r', '\n'] (by decide)⟩,
    ⟨by decide, C11_whitespace_only [] (by decide)⟩⟩

/-- C12.  In every scanner state, a call of `Scan` that returns a kind other
than `EOF` leaves strictly fewer runes unread than there were before it. -/
theorem C12_progress (s s1 : Scanner) (tk : Token) (lex : String)
    (hS : s.Scan = some ((tk, lex), s1)) (hk : tk ≠ EOF) :
    s1.rest.length < s.rest.length := by
  obtain ⟨s2, hS2, hr, _⟩ := Scan_eq_scanList s
  rw [hS2] at hS
  have h1 := Option.some.inj hS
  have h2 : (scanList s.rest).1 = (tk, lex) := congrArg Prod.fst h1
  have h3 : s2 = s1 := congrArg Prod.snd h1
  have h4 : (scanList s.rest).1.1 ≠ EOF := by rw [h2]; exact hk
  rw [← h3, hr]
  exact scanList_progress h4

/-- C12, instance: over `ab;` the first call returns `(TEXT, "ab")` and moves
from three unread runes to one. -/
theorem C12_progress_witness :
    (NewReader ['a', 'b', ';']).Scan = some ((TEXT, "ab"), st ['a', 'b', ';'] 2 (-1)) ∧
      TEXT ≠ EOF ∧
      (st ['a', 'b', ';'] 2 (-1)).rest.length < (NewReader ['a', 'b', ';']).rest.length :=
  ⟨by decide, by decide,
    C12_progress (NewReader ['a', 'b', ';']) (st ['a', 'b', ';'] 2 (-1)) TEXT "ab"
      (by decide) (by decide)⟩

/-- C13.  For every run `ws` of white space and every input `inp`, `Scan` on a
fresh scanner over `ws ++ inp` and `Scan` on a fresh scanner over `inp` return
the same kind and lexeme and leave the same runes unread. -/
theorem C13_leading_whitespace (ws inp : List Char) (hws : ∀ c ∈ ws, isSpace c = true) :
    ∃ t s1 s2, (NewReader (ws ++ inp)).Scan = some (t, s1) ∧
      (NewReader inp).Scan = some (t, s2) ∧ s1.rest = s2.rest := by
  obtain ⟨s1, hS1, hr1, _⟩ := Scan_eq_scanList (NewReader (ws ++ inp))
  obtain ⟨s2, hS2, hr2, _⟩ := Scan_eq_scanList (NewReader inp)
  have e1 : (NewReader (ws ++ inp)).rest = ws ++ inp := rfl
  have e2 : (NewReader inp).rest = inp := rfl
  rw [e1, scanList_append_space inp hws] at hS1 hr1
  rw [e2] at hS2 hr2
  exact ⟨(scanList inp).1, s1, s2, hS1, hS2, hr1.trans hr2.symm⟩

/-- C13, instance: `12 a` with and without a blank and a line feed in front. -/
theorem C13_leading_whitespace_witness :
    (∀ c ∈ [' ', '\n'], isSpace c = true) ∧
      ∃ t s1 s2, (NewReader ([' ', '\n'] ++ ['1', '2', ' ', 'a'])).Scan = some (t, s1) ∧
        (NewReader ['1', '2', ' ', 'a']).Scan = some (t, s2) ∧ s1.rest = s2.rest :=
  ⟨by decide, C13_leading_whitespace [' ', '\n'] ['1', '2', ' ', 'a'] (by decide)⟩

theorem scanList_punctuationKind {c : Char} (cs : List Char) (hc : c ∈ punctuation) :
    scanList (c :: cs) = ((punctuationKind c, String.singleton c), cs) := by
  simp only [punctuation, List.mem_cons, List.mem_singleton, List.not_mem_nil, or_false] at hc
  rcases hc with hc | hc | hc | hc | hc | hc | hc <;> subst hc <;> rfl

theorem scanListN_punctuation :
    ∀ p : List Char, (∀ c ∈ p, c ∈ punctuation) →
      (scanListN (p.length + 1) p).1 =
        p.map (fun c => (punctuationKind c, String.singleton c)) ++ [(EOF, "")] := by
  intro p
  induction p with
  | nil => intro _; rfl
  | cons c cs ih =>
    intro h
    have hc := scanList_punctuationKind cs (h c (List.mem_cons_self c cs))
    have h2 := ih (fun x hx => h x (List.mem_cons_of_mem c hx))
    simp only [List.length_cons, scanListN, hc, List.map_cons, List.cons_append] at h2 ⊢
    rw [h2]

/-- C14.  For every sequence `p` of punctuation runes, `p.length + 1` calls of
`Scan` over `p` return one token for each rune of `p`, in order, with the kind
that belongs to the rune and the rune itself as lexeme, and then `(EOF, "")`. -/
theorem C14_punctuation_sequence (p : List Char) (hp : ∀ c ∈ p, c ∈ punctuation) :
    ((NewReader p).ScanN (p.length + 1)).map Prod.fst =
      some (p.map (fun c => (punctuationKind c, String.singleton c)) ++ [(EOF, "")]) := by
  obtain ⟨s1, hS, _, _⟩ := ScanN_eq_scanListN (p.length + 1) (NewReader p)
  have hrest : (NewReader p).rest = p := rfl
  rw [hS, hrest, Option.map_some', scanListN_punctuation p hp]

/-- C14, instances: `==` gives two `EQUAL` tokens, and a double quote next to a
single quote gives a `DQUOTE` and a `SQUOTE` token. -/
theorem C14_punctuation_sequence_witness :
    ((∀ c ∈ ['=', '='], c ∈ punctuation) ∧
      ((NewReader ['=', '=']).ScanN 3).map Prod.fst =
        some [(EQUAL, "="), (EQUAL, "="), (EOF, "")]) ∧
    ((∀ c ∈ ['"', '\''], c ∈ punctuation) ∧
      ((NewReader ['"', '\'']).ScanN 3).map Prod.fst =
        some [(DQUOTE, "\""), (SQUOTE, "'"), (EOF, "")]) :=
  ⟨⟨by decide, C14_punctuation_sequence ['=', '='] (by decide)⟩,
    ⟨by decide, C14_punctuation_sequence ['"', '\''] (by decide)⟩⟩

theorem scanList_digits {d : Char} {D1 : List Char} (hDd : ∀ c ∈ d :: D1, isNumber c = true) :
    scanList (d :: D1) = ((NUMBER, String.mk (d :: D1)), []) := by
  have hd : isNumber d = true := hDd d (List.mem_cons_self d D1)
  rw [scanList_number (List.dropWhile_cons_of_neg (by simp [isSpace_of_isNumber hd])) hd]
  have t1 : (d :: D1).takeWhile isNumber = d :: D1 := List.takeWhile_eq_self_iff.mpr hDd
  have t2 : (d :: D1).dropWhile isNumber = [] := List.dropWhile_eq_nil_iff.mpr hDd
  rw [t1, t2]
  rfl

/-- C15.  For every non-empty run `D` of digits, three calls of `Scan` over
`-` followed by `D` return `(MINUS, "-")`, `(NUMBER, D)` and `(EOF, "")`, and over
`+` followed by `D` they return `(PLUS, "+")`, `(NUMBER, D)` and `(EOF, "")`. -/
theorem C15_sign_then_digits (D : List Char) (hD : D ≠ [])
    (hDd : ∀ c ∈ D, isNumber c = true) :
    ((NewReader ('-' :: D)).ScanN 3).map Prod.fst =
        some [(MINUS, "-"), (NUMBER, String.mk D), (EOF, "")] ∧
      ((NewReader ('+' :: D)).ScanN 3).map Prod.fst =
        some [(PLUS, "+"), (NUMBER, String.mk D), (EOF, "")] := by
  cases D with
  | nil => exact absurd rfl hD
  | cons d D1 =>
    have h2 := scanList_digits hDd
    have hm : scanList ('-' :: d :: D1) = ((MINUS, "-"), d :: D1) :=
      scanList_punctuationKind (d :: D1) (by decide)
    have hp : scanList ('+' :: d :: D1) = ((PLUS, "+"), d :: D1) :=
      scanList_punctuationKind (d :: D1) (by decide)
    constructor
    · obtain ⟨s3, hS, _, _⟩ := ScanN_eq_scanListN 3 (NewReader ('-' :: d :: D1))
      have hrest : (NewReader ('-' :: d :: D1)).rest = '-' :: d :: D1 := rfl
      rw [hS, hrest]
      simp only [scanListN, hm, h2, scanList_nil, Option.map_some']
    · obtain ⟨s3, hS, _, _⟩ := ScanN_eq_scanListN 3 (NewReader ('+' :: d :: D1))
      have hrest : (NewReader ('+' :: d :: D1)).rest = '+' :: d :: D1 := rfl
      rw [hS, hrest]
      simp only [scanListN, hp, h2, scanList_nil, Option.map_some']

/-- C15, instance: the inputs `-42` and `+42`. -/
theorem C15_sign_then_digits_witness :
    ['4', '2'] ≠ [] ∧ (∀ c ∈ ['4', '2'], isNumber c = true) ∧
      ((NewReader ('-' :: ['4', '2'])).ScanN 3).map Prod.fst =
        some [(MINUS, "-"), (NUMBER, String.mk ['4', '2']), (EOF, "")] ∧
      ((NewReader ('+' :: ['4', '2'])).ScanN 3).map Prod.fst =
        some [(PLUS, "+"), (NUMBER, String.mk ['4', '2']), (EOF, "")] :=
  ⟨by decide, by decide, C15_sign_then_digits ['4', '2'] (by decide) (by decide)⟩

/-- C19.  When the unread runes are a non-empty run `D` of digits (a non-empty
run `L` of letters), then the rune U+0000, then `rest`, `Scan` returns
`(NUMBER, D)` (`(TEXT, L)`) and leaves exactly `rest` unread: the rune U+0000 is
consumed with the run. -/
theorem C19_nul_ends_run (s : Scanner) (run rest : List Char)
    (hs : s.rest = run ++ eof :: rest) (hrun : run ≠ []) :
    ((∀ c ∈ run, isNumber c = true) →
      ∃ s1, s.Scan = some ((NUMBER, String.mk run), s1) ∧ s1.rest = rest) ∧
    ((∀ c ∈ run, isCharacter c = true) →
      ∃ s1, s.Scan = some ((TEXT, String.mk run), s1) ∧ s1.rest = rest) := by
  obtain ⟨s1, hS, hrest, _⟩ := Scan_eq_scanList s
  cases run with
  | nil => exact absurd rfl hrun
  | cons d run1 =>
    rw [hs, List.cons_append] at hS hrest
    constructor
    · intro hall
      have hd : isNumber d = true := hall d (List.mem_cons_self d run1)
      obtain ⟨h1, h2⟩ := takeWhile_run_stop isNumber (t := rest) hall isNumber_eof
      rw [scanList_number (List.dropWhile_cons_of_neg (by simp [isSpace_of_isNumber hd])) hd]
        at hS hrest
      simp only [← List.cons_append, h1, h2, afterStop, if_true] at hS hrest
      exact ⟨s1, hS, hrest⟩
    · intro hall
      have hd : isCharacter d = true := hall d (List.mem_cons_self d run1)
      obtain ⟨h1, h2⟩ := takeWhile_run_stop isCharacter (t := rest) hall isCharacter_eof
      rw [scanList_text (List.dropWhile_cons_of_neg (by simp [isSpace_of_isCharacter hd])) hd]
        at hS hrest
      simp only [← List.cons_append, h1, h2, afterStop, if_true] at hS hrest
      exact ⟨s1, hS, hrest⟩

/-- C19, instance: `12` U+0000 `34` gives `(NUMBER, "12")` and leaves `34`; `ab`
U+0000 `cd` gives `(TEXT, "ab")` and leaves `cd`. -/
theorem C19_nul_ends_run_witness :
    ((NewReader ['1', '2', eof, '3', '4']).rest = ['1', '2'] ++ eof :: ['3', '4'] ∧
      ['1', '2'] ≠ [] ∧ (∀ c ∈ ['1', '2'], isNumber c = true) ∧
      ∃ s1, (NewReader ['1', '2', eof, '3', '4']).Scan
          = some ((NUMBER, String.mk ['1', '2']), s1) ∧ s1.rest = ['3', '4']) ∧
    ((NewReader ['a', 'b', eof, 'c', 'd']).rest = ['a', 'b'] ++ eof :: ['c', 'd'] ∧
      ['a', 'b'] ≠ [] ∧ (∀ c ∈ ['a', 'b'], isCharacter c = true) ∧
      ∃ s1, (NewReader ['a', 'b', eof, 'c', 'd']).Scan
          = some ((TEXT, String.mk ['a', 'b']), s1) ∧ s1.rest = ['c', 'd']) :=
  ⟨⟨rfl, by decide, by decide,
      (C19_nul_ends_run (NewReader ['1', '2', eof, '3', '4']) ['1', '2'] ['3', '4'] rfl
        (by decide)).1 (by decide)⟩,
    ⟨rfl, by decide, by decide,
      (C19_nul_ends_run (NewReader ['a', 'b', eof, 'c', 'd']) ['a', 'b'] ['c', 'd'] rfl
        (by decide)).2 (by decide)⟩⟩

set_option maxHeartbeats 1000000 in
/-- The kind that `scanList` returns is the outcome of the chain of tests on the
rune read after the white space. -/
theorem scanList_kind (rem : List Char) :
    (scanList rem).1.1 =
      match afterStop (rem.dropWhile isSpace) with
      | [] => EOF
      | c :: _ => firstMatch (branches c) := by
  unfold scanList
  split
  · rfl
  · split_ifs <;> simp [firstMatch, branches, *] <;> decide

theorem firstMatch_mem (l : List (Bool × Token)) :
    firstMatch l = ILLEGAL ∨ firstMatch l ∈ l.map Prod.snd := by
  induction l with
  | nil => left; rfl
  | cons a l ih =>
    obtain ⟨b, t⟩ := a
    cases b with
    | true => right; simp [firstMatch]
    | false =>
      rcases ih with h | h
      · left; simpa [firstMatch] using h
      · right; simp only [firstMatch, Bool.false_eq_true, if_false, List.map_cons]
        exact List.mem_cons_of_mem _ h

theorem scanList_kind_mem (rem : List Char) : (scanList rem).1.1 ∈ kinds := by
  rw [scanList_kind]
  have hsub : ∀ c : Char, ∀ t ∈ (branches c).map Prod.snd, t ∈ kinds := by
    intro c t ht
    simp only [branches, List.map_cons, List.map_nil, List.mem_cons, List.mem_singleton,
      List.not_mem_nil, or_false] at ht
    rcases ht with h | h | h | h | h | h | h | h | h | h <;> subst h <;> decide
  split
  · decide
  · rename_i c cs _
    rcases firstMatch_mem (branches c) with h | h
    · rw [h]; decide
    · exact hsub c _ h

/-- C16.  In every scanner state `Scan` returns, and the kind it returns is one
of the eleven kinds `SEMICOLON`, `PLUS`, `MINUS`, `MULTIPLY`, `EQUAL`, `DQUOTE`,
`SQUOTE`, `TEXT`, `NUMBER`, `EOF`, `ILLEGAL` and is not `IDENT`; the eleven
constants are pairwise distinct. -/
theorem C16_kinds (s : Scanner) :
    (∃ tk lex s1, s.Scan = some ((tk, lex), s1) ∧ tk ∈ kinds ∧ tk ≠ IDENT) ∧
      kinds.Nodup ∧ kinds.length = 11 := by
  obtain ⟨s1, hS, _, _⟩ := Scan_eq_scanList s
  have hmem := scanList_kind_mem s.rest
  have hid : IDENT ∉ kinds := by decide
  refine ⟨⟨(scanList s.rest).1.1, (scanList s.rest).1.2, s1, hS, hmem, ?_⟩, by decide, rfl⟩
  intro h
  rw [h] at hmem
  exact hid hmem

/-- C20.  In every scanner state `Scan` returns a kind for which `Token.String`
stays inside the table `tokens` and gives a name that is not empty; the table
has 14 entries, those at the indices 0 and 6 are empty, and an index of 14 or
more is out of range. -/
theorem C20_token_names (s : Scanner) :
    (∃ tk lex s1 name, s.Scan = some ((tk, lex), s1) ∧ Token.String tk = some name ∧
        name ≠ "") ∧
      tokens.length = 14 ∧ Token.String 0 = some "" ∧ Token.String 6 = some "" ∧
      (∀ t : Int, 14 ≤ t ↔ (0 ≤ t ∧ Token.String t = none)) := by
  obtain ⟨s1, hS, _, _⟩ := Scan_eq_scanList s
  have hall : ∀ tk ∈ kinds, ∃ name, Token.String tk = some name ∧ name ≠ "" := by
    intro tk htk
    simp only [kinds, List.mem_cons, List.mem_singleton, List.not_mem_nil, or_false] at htk
    rcases htk with h | h | h | h | h | h | h | h | h | h | h <;> subst h
    · exact ⟨"SEMICOLON", by decide, by decide⟩
    · exact ⟨"PLUS", by decide, by decide⟩
    · exact ⟨"MINUS", by decide, by decide⟩
    · exact ⟨"MULTIPLY", by decide, by decide⟩
    · exact ⟨"EQUAL", by decide, by decide⟩
    · exact ⟨"DOUBLEQUOTE", by decide, by decide⟩
    · exact ⟨"SINGLEQUOTE", by decide, by decide⟩
    · exact ⟨"TEXT", by decide, by decide⟩
    · exact ⟨"NUMBER", by decide, by decide⟩
    · exact ⟨"EOF", by decide, by decide⟩
    · exact ⟨"ILLEGAL", by decide, by decide⟩
  obtain ⟨name, hn1, hn2⟩ := hall _ (scanList_kind_mem s.rest)
  have hlen : tokens.length = 14 := by decide
  refine ⟨⟨(scanList s.rest).1.1, (scanList s.rest).1.2, s1, name, hS, hn1, hn2⟩, hlen,
    by decide, by decide, ?_⟩
  intro t
  constructor
  · intro ht
    have h0 : ¬ t < 0 := by omega
    refine ⟨by omega, ?_⟩
    simp only [Token.String, h0, if_false]
    rw [List.getElem?_eq_none_iff, hlen]
    omega
  · rintro ⟨h0, ht⟩
    have h1 : ¬ t < 0 := by omega
    simp only [Token.String, h1, if_false] at ht
    rw [List.getElem?_eq_none_iff, hlen] at ht
    omega

theorem firstMatch_eq_filter (l : List (Bool × Token)) :
    firstMatch l = (((l.filter (fun e => e.1)).head?).map Prod.snd).getD ILLEGAL := by
  induction l with
  | nil => rfl
  | cons a l ih =>
    obtain ⟨b, t⟩ := a
    cases b with
    | true => simp [firstMatch]
    | false => simpa [firstMatch] using ih

theorem perm_eq_of_length_le_one {l1 l2 : List (Bool × Token)} (h : l1.Perm l2)
    (hlen : l2.length ≤ 1) : l1 = l2 := by
  match l2, h, hlen with
  | [], h, _ => exact h.eq_nil
  | [a], h, _ => exact List.perm_singleton.mp h
  | _ :: _ :: _, _, hlen => simp at hlen

theorem not_isNumber_of_mem_punctuation {r : Char} (h : r ∈ punctuation) :
    isNumber r = false ∧ isCharacter r = false ∧ isSpace r = false ∧ r ≠ eof := by
  simp only [punctuation, List.mem_cons, List.mem_singleton, List.not_mem_nil, or_false] at h
  rcases h with h | h | h | h | h | h | h <;> subst h <;> decide

/-- At most one of the tests of `Scan` succeeds on a rune. -/
theorem branches_at_most_one (r : Char) :
    ((branches r).filter (fun e => e.1)).length ≤ 1 := by
  by_cases hp : r ∈ punctuation
  · simp only [punctuation, List.mem_cons, List.mem_singleton, List.not_mem_nil, or_false] at hp
    rcases hp with h | h | h | h | h | h | h <;> subst h <;> decide
  · by_cases h0 : r = eof
    · subst h0; decide
    · simp only [punctuation, List.mem_cons, List.mem_singleton, List.not_mem_nil, or_false,
        not_or] at hp
      obtain ⟨p1, p2, p3, p4, p5, p6, p7⟩ := hp
      cases hn : isNumber r with
      | true =>
        simp [branches, hn, isCharacter_of_isNumber hn, p1, p2, p3, p4, p5, p6, p7, h0]
      | false =>
        cases hc : isCharacter r <;>
          simp [branches, hn, hc, p1, p2, p3, p4, p5, p6, p7, h0]

/-- C17.  For every rune `r`: exactly one of "digit", "letter", "one of the
seven punctuation runes", "anything else" holds; white space is no digit, no
letter and no punctuation rune; the tests of `Scan` can be put in any order
without changing the kind they select; and that kind is the one `Scan` returns
for the rune it reads after the white space. -/
theorem C17_classification (r : Char) :
    ((isNumber r = true ∧ isCharacter r = false ∧ r ∉ punctuation) ∨
      (isNumber r = false ∧ isCharacter r = true ∧ r ∉ punctuation) ∨
      (isNumber r = false ∧ isCharacter r = false ∧ r ∈ punctuation) ∨
      (isNumber r = false ∧ isCharacter r = false ∧ r ∉ punctuation)) ∧
    (isSpace r = true → isNumber r = false ∧ isCharacter r = false ∧ r ∉ punctuation) ∧
    (∀ l : List (Bool × Token), l.Perm (branches r) →
      firstMatch l = firstMatch (branches r)) ∧
    (∀ rest : List Char, r ≠ eof → isSpace r = false →
      ∃ lex s1, (NewReader (r :: rest)).Scan = some ((firstMatch (branches r), lex), s1)) := by
  refine ⟨?_, ?_, ?_, ?_⟩
  · by_cases hp : r ∈ punctuation
    · obtain ⟨h1, h2, _, _⟩ := not_isNumber_of_mem_punctuation hp
      exact Or.inr (Or.inr (Or.inl ⟨h1, h2, hp⟩))
    · cases hn : isNumber r with
      | true => exact Or.inl ⟨rfl, isCharacter_of_isNumber hn, hp⟩
      | false =>
        cases hc : isCharacter r with
        | true => exact Or.inr (Or.inl ⟨rfl, rfl, hp⟩)
        | false => exact Or.inr (Or.inr (Or.inr ⟨rfl, rfl, hp⟩))
  · intro hs
    refine ⟨?_, ?_, ?_⟩
    · cases hn : isNumber r with
      | false => rfl
      | true => rw [isSpace_of_isNumber hn] at hs; exact absurd hs (by decide)
    · cases hc : isCharacter r with
      | false => rfl
      | true => rw [isSpace_of_isCharacter hc] at hs; exact absurd hs (by decide)
    · intro hp
      rw [(not_isNumber_of_mem_punctuation hp).2.2.1] at hs
      exact absurd hs (by decide)
  · intro l hl
    rw [firstMatch_eq_filter l, firstMatch_eq_filter (branches r),
      perm_eq_of_length_le_one (hl.filter _) (branches_at_most_one r)]
  · intro rest h0 hs
    obtain ⟨s1, hS, _, _⟩ := Scan_eq_scanList (NewReader (r :: rest))
    have hrest : (NewReader (r :: rest)).rest = r :: rest := rfl
    have hk := scanList_kind (r :: rest)
    rw [List.dropWhile_cons_of_neg (by simp [hs])] at hk
    simp only [afterStop, h0, if_false] at hk
    rw [hrest] at hS
    refine ⟨(scanList (r :: rest)).1.2, s1, ?_⟩
    rw [hS, ← hk]

/-- C17, instance at the rune `;`: the tests taken in the opposite order select
the same kind, `Scan` over `;1` returns that kind, and the blank is no digit, no
letter and no punctuation rune. -/
theorem C17_classification_witness :
    ((branches ';').reverse.Perm (branches ';') ∧
      firstMatch (branches ';').reverse = firstMatch (branches ';')) ∧
    (';' ≠ eof ∧ isSpace ';' = false ∧
      ∃ lex s1, (NewReader (';' :: ['1'])).Scan
        = some ((firstMatch (branches ';'), lex), s1)) ∧
    (isSpace ' ' = true ∧
      isNumber ' ' = false ∧ isCharacter ' ' = false ∧ ' ' ∉ punctuation) :=
  ⟨⟨List.reverse_perm _, (C17_classification ';').2.2.1 _ (List.reverse_perm _)⟩,
    ⟨by decide, by decide, (C17_classification ';').2.2.2 ['1'] (by decide) (by decide)⟩,
    ⟨by decide, (C17_classification ' ').2.1 (by decide)⟩⟩

/-! ## The requests made to the reader -/

theorem Traced_Read_cons {buf : List Char} {r : Nat} {c : Char} {cs : List Char} (l : Int)
    (L : List Op) (h : buf.drop r = c :: cs) :
    (Traced.mk (st buf r l) L).Read = (c, Traced.mk (st buf (r + 1) 1) (Op.read true :: L)) := by
  have hget : buf[r]? = some c := by
    have h2 := List.getElem?_drop (L := buf) (i := r) (j := 0)
    rw [h] at h2
    simpa using h2.symm
  simp [Traced.Read, Scanner.Read, Reader.ReadRune, st, hget]

theorem Traced_Read_nil {buf : List Char} {r : Nat} (l : Int) (L : List Op)
    (h : buf.drop r = []) :
    (Traced.mk (st buf r l) L).Read = (eof, Traced.mk (st buf r (-1)) (Op.read false :: L)) := by
  have hget : buf[r]? = none := by
    rw [List.getElem?_eq_none_iff]
    exact List.drop_eq_nil_iff.mp h
  simp [Traced.Read, Scanner.Read, Reader.ReadRune, st, hget]

theorem Traced_unread_after_read (buf : List Char) (r : Nat) (L : List Op) :
    (Traced.mk (st buf (r + 1) 1) L).unread = Traced.mk (st buf r (-1)) (Op.unread true :: L) := by
  have h : ¬ ((1 : Int) < 0 ∨ ((r + 1 : Nat) : Int) < 1) := by omega
  simp only [Traced.unread, Scanner.unread, Reader.UnreadRune, st, h, if_false]
  rfl

theorem Traced_consumeSpaceLoop_spec (buf : List Char) :
    ∀ (rem : List Char) (fuel r : Nat) (l : Int) (L : List Op),
      rem.length < fuel → buf.drop r = rem → unreadsFollowReads L = true →
      ∃ L1, Traced.consumeSpaceLoop fuel (Traced.mk (st buf r l) L) =
          some (Traced.mk (stopAt buf (r + (rem.takeWhile isSpace).length)
            (rem.dropWhile isSpace)) L1) ∧ unreadsFollowReads L1 = true ∧ L <:+ L1 := by
  intro rem
  induction rem with
  | nil =>
    intro fuel r l L hf hr hL
    cases fuel with
    | zero => simp at hf
    | succ f =>
      exact ⟨Op.read false :: L, by
        simp [Traced.consumeSpaceLoop, Traced_Read_nil l L hr, stopAt], hL,
        List.suffix_cons _ _⟩
  | cons c cs ih =>
    intro fuel r l L hf hr hL
    cases fuel with
    | zero => simp at hf
    | succ f =>
      have hf2 : cs.length < f := by simpa using hf
      by_cases hc : c = eof
      · subst hc
        exact ⟨Op.read true :: L, by
          simp [Traced.consumeSpaceLoop, Traced_Read_cons l L hr, stopAt, isSpace_eof], hL,
          List.suffix_cons _ _⟩
      · by_cases hp : isSpace c = true
        · obtain ⟨L1, h2, hL1, hsuf⟩ := ih f (r + 1) 1 (Op.read true :: L) hf2
            (drop_succ_of_cons hr) hL
          refine ⟨L1, ?_, hL1, (List.suffix_cons _ _).trans hsuf⟩
          simp only [Traced.consumeSpaceLoop, Traced_Read_cons l L hr, hc, hp, if_true,
            if_false, h2]
          simp [List.takeWhile_cons, List.dropWhile_cons, hp, Nat.add_assoc, Nat.add_comm 1]
        · refine ⟨Op.unread true :: Op.read true :: L, ?_, ?_,
            (List.suffix_cons _ _).trans (List.suffix_cons _ _)⟩
          · simp [Traced.consumeSpaceLoop, Traced_Read_cons l L hr, stopAt, hc, hp,
              Traced_unread_after_read]
          · simpa [unreadsFollowReads] using hL

theorem Traced_readNumbersLoop_spec (buf : List Char) :
    ∀ (rem : List Char) (fuel r : Nat) (l : Int) (L : List Op) (acc : String),
      rem.length < fuel → buf.drop r = rem → unreadsFollowReads L = true →
      ∃ L1, Traced.readNumbersLoop fuel (Traced.mk (st buf r l) L) acc =
          some (String.mk (acc.data ++ rem.takeWhile isNumber),
            Traced.mk (stopAt buf (r + (rem.takeWhile isNumber).length)
              (rem.dropWhile isNumber)) L1) ∧ unreadsFollowReads L1 = true ∧ L <:+ L1 := by
  intro rem
  induction rem with
  | nil =>
    intro fuel r l L acc hf hr hL
    cases fuel with
    | zero => simp at hf
    | succ f =>
      exact ⟨Op.read false :: L, by
        simp [Traced.readNumbersLoop, Traced_Read_nil l L hr, stopAt], hL,
        List.suffix_cons _ _⟩
  | cons c cs ih =>
    intro fuel r l L acc hf hr hL
    cases fuel with
    | zero => simp at hf
    | succ f =>
      have hf2 : cs.length < f := by simpa using hf
      by_cases hc : c = eof
      · subst hc
        exact ⟨Op.read true :: L, by
          simp [Traced.readNumbersLoop, Traced_Read_cons l L hr, stopAt, isNumber_eof], hL,
          List.suffix_cons _ _⟩
      · by_cases hp : isNumber c = true
        · obtain ⟨L1, h2, hL1, hsuf⟩ := ih f (r + 1) 1 (Op.read true :: L) (acc.push c) hf2
            (drop_succ_of_cons hr) hL
          refine ⟨L1, ?_, hL1, (List.suffix_cons _ _).trans hsuf⟩
          simp only [Traced.readNumbersLoop, Traced_Read_cons l L hr, hc, hp, if_true,
            if_false, h2]
          simp [List.takeWhile_cons, List.dropWhile_cons, hp, Nat.add_assoc, Nat.add_comm 1]
        · refine ⟨Op.unread true :: Op.read true :: L, ?_, ?_,
            (List.suffix_cons _ _).trans (List.suffix_cons _ _)⟩
          · simp [Traced.readNumbersLoop, Traced_Read_cons l L hr, stopAt, hc, hp,
              Traced_unread_after_read]
          · simpa [unreadsFollowReads] using hL

theorem Traced_readCharactersLoop_spec (buf : List Char) :
    ∀ (rem : List Char) (fuel r : Nat) (l : Int) (L : List Op) (acc : String),
      rem.length < fuel → buf.drop r = rem → unreadsFollowReads L = true →
      ∃ L1, Traced.readCharactersLoop fuel (Traced.mk (st buf r l) L) acc =
          some (String.mk (acc.data ++ rem.takeWhile isCharacter),
            Traced.mk (stopAt buf (r + (rem.takeWhile isCharacter).length)
              (rem.dropWhile isCharacter)) L1) ∧ unreadsFollowReads L1 = true ∧ L <:+ L1 := by
  intro rem
  induction rem with
  | nil =>
    intro fuel r l L acc hf hr hL
    cases fuel with
    | zero => simp at hf
    | succ f =>
      exact ⟨Op.read false :: L, by
        simp [Traced.readCharactersLoop, Traced_Read_nil l L hr, stopAt], hL,
        List.suffix_cons _ _⟩
  | cons c cs ih =>
    intro fuel r l L acc hf hr hL
    cases fuel with
    | zero => simp at hf
    | succ f =>
      have hf2 : cs.length < f := by simpa using hf
      by_cases hc : c = eof
      · subst hc
        exact ⟨Op.read true :: L, by
          simp [Traced.readCharactersLoop, Traced_Read_cons l L hr, stopAt, isCharacter_eof],
          hL, List.suffix_cons _ _⟩
      · by_cases hp : isCharacter c = true
        · obtain ⟨L1, h2, hL1, hsuf⟩ := ih f (r + 1) 1 (Op.read true :: L) (acc.push c) hf2
            (drop_succ_of_cons hr) hL
          refine ⟨L1, ?_, hL1, (List.suffix_cons _ _).trans hsuf⟩
          simp only [Traced.readCharactersLoop, Traced_Read_cons l L hr, hc, hp, if_true,
            if_false, h2]
          simp [List.takeWhile_cons, List.dropWhile_cons, hp, Nat.add_assoc, Nat.add_comm 1]
        · refine ⟨Op.unread true :: Op.read true :: L, ?_, ?_,
            (List.suffix_cons _ _).trans (List.suffix_cons _ _)⟩
          · simp [Traced.readCharactersLoop, Traced_Read_cons l L hr, stopAt, hc, hp,
              Traced_unread_after_read]
          · simpa [unreadsFollowReads] using hL

theorem Traced_consumeSpace_st (buf : List Char) (r : Nat) (l : Int) (L : List Op)
    (hL : unreadsFollowReads L = true) :
    ∃ L1, (Traced.mk (st buf r l) L).consumeSpace =
        some (Traced.mk (stopAt buf (r + ((buf.drop r).takeWhile isSpace).length)
          ((buf.drop r).dropWhile isSpace)) L1) ∧ unreadsFollowReads L1 = true ∧ L <:+ L1 := by
  unfold Traced.consumeSpace
  exact Traced_consumeSpaceLoop_spec buf (buf.drop r) _ r l L
    (Nat.lt_succ_of_le (List.length_drop r buf ▸ Nat.sub_le _ _)) rfl hL

theorem Traced_readNumbers_st (buf : List Char) (r : Nat) (L : List Op)
    (hL : unreadsFollowReads L = true) :
    ∃ L1, (Traced.mk (st buf (r + 1) 1) (Op.read true :: L)).readNumbers =
        some (String.mk ((buf.drop r).takeWhile isNumber),
          Traced.mk (stopAt buf (r + ((buf.drop r).takeWhile isNumber).length)
            ((buf.drop r).dropWhile isNumber)) L1) ∧
        unreadsFollowReads L1 = true ∧ L <:+ L1 := by
  unfold Traced.readNumbers
  rw [Traced_unread_after_read]
  have hL2 : unreadsFollowReads (Op.unread true :: Op.read true :: L) = true := by
    simpa [unreadsFollowReads] using hL
  obtain ⟨L1, h, hL1, hsuf⟩ := Traced_readNumbersLoop_spec buf (buf.drop r) (buf.length + 1) r
    (-1) _ "" (Nat.lt_succ_of_le (List.length_drop r buf ▸ Nat.sub_le _ _)) rfl hL2
  refine ⟨L1, ?_, hL1, ((List.suffix_cons _ _).trans (List.suffix_cons _ _)).trans hsuf⟩
  simpa using h

theorem Traced_readCharacters_st (buf : List Char) (r : Nat) (L : List Op)
    (hL : unreadsFollowReads L = true) :
    ∃ L1, (Traced.mk (st buf (r + 1) 1) (Op.read true :: L)).readCharacters =
        some (String.mk ((buf.drop r).takeWhile isCharacter),
          Traced.mk (stopAt buf (r + ((buf.drop r).takeWhile isCharacter).length)
            ((buf.drop r).dropWhile isCharacter)) L1) ∧
        unreadsFollowReads L1 = true ∧ L <:+ L1 := by
  unfold Traced.readCharacters
  rw [Traced_unread_after_read]
  have hL2 : unreadsFollowReads (Op.unread true :: Op.read true :: L) = true := by
    simpa [unreadsFollowReads] using hL
  obtain ⟨L1, h, hL1, hsuf⟩ := Traced_readCharactersLoop_spec buf (buf.drop r)
    (buf.length + 1) r (-1) _ "" (Nat.lt_succ_of_le (List.length_drop r buf ▸ Nat.sub_le _ _))
    rfl hL2
  refine ⟨L1, ?_, hL1, ((List.suffix_cons _ _).trans (List.suffix_cons _ _)).trans hsuf⟩
  simpa using h

set_option maxHeartbeats 2000000 in
/-- C18.  In every scanner state and after any earlier requests `L` that were
in order, a call of `Scan` returns, its logged run returns the same result and
scanner as `Scan` itself, the log keeps the earlier requests, and in the log every
unread request succeeded and comes directly after a read that succeeded. -/
theorem C18_unreads_follow_reads (s : Scanner) (L : List Op)
    (hL : unreadsFollowReads L = true) :
    ∃ res s1 L1, (Traced.mk s L).Scan = some (res, Traced.mk s1 L1) ∧
      s.Scan = some (res, s1) ∧ unreadsFollowReads L1 = true ∧ L <:+ L1 := by
  obtain ⟨⟨buf, r, l⟩⟩ := s
  change ∃ res s1 L1, (Traced.mk (st buf r l) L).Scan = some (res, Traced.mk s1 L1) ∧
    (st buf r l).Scan = some (res, s1) ∧ unreadsFollowReads L1 = true ∧ L <:+ L1
  obtain ⟨r0, l0, h0, hd0⟩ := stopAt_eq_st (drop_add_takeWhile isSpace (rfl : buf.drop r = _))
  obtain ⟨L0, hc, hL0, hs0⟩ := Traced_consumeSpace_st buf r l L hL
  unfold Traced.Scan Scanner.Scan
  rw [hc, consumeSpace_st, h0]
  generalize afterStop ((buf.drop r).dropWhile isSpace) = t2 at hd0
  cases t2 with
  | nil =>
    have e1 : eof ≠ ';' := by decide
    have e2 : eof ≠ '+' := by decide
    have e3 : eof ≠ '*' := by decide
    have e4 : eof ≠ '-' := by decide
    refine ⟨(EOF, ""), st buf r0 (-1), Op.read false :: L0, ?_⟩
    · simp only [Traced_Read_nil l0 L0 hd0, Read_nil l0 hd0, isNumber_eof, isCharacter_eof,
        Bool.false_eq_true, if_false, e1, e2, e3, e4, if_true, true_and]
      exact ⟨hL0, hs0.trans (List.suffix_cons _ _)⟩
  | cons c cs =>
    simp only [Traced_Read_cons l0 L0 hd0, Read_cons l0 hd0]
    cases hn : isNumber c with
    | true =>
      obtain ⟨L1, hr, hL1, hs1⟩ := Traced_readNumbers_st buf r0 L0 hL0
      simp only [if_true, hr, readNumbers_st]
      exact ⟨_, _, L1, rfl, rfl, hL1, hs0.trans hs1⟩
    | false =>
      cases hch : isCharacter c with
      | true =>
        obtain ⟨L1, hr, hL1, hs1⟩ := Traced_readCharacters_st buf r0 L0 hL0
        simp only [Bool.false_eq_true, if_false, if_true, hr, readCharacters_st]
        exact ⟨_, _, L1, rfl, rfl, hL1, hs0.trans hs1⟩
      | false =>
        simp only [Bool.false_eq_true, if_false]
        split_ifs <;>
          exact ⟨_, _, Op.read true :: L0, rfl, rfl, hL0, hs0.trans (List.suffix_cons _ _)⟩

/-- C18, instance: the call of `Scan` over `1 ` makes the requests read, unread,
read, unread, read, read, unread (the first made comes last in the log). -/
theorem C18_unreads_follow_reads_witness :
    unreadsFollowReads [] = true ∧
      (Traced.mk (NewReader ['1', ' ']) []).Scan =
        some ((NUMBER, "1"), Traced.mk (st ['1', ' '] 1 (-1))
          [Op.unread true, Op.read true, Op.read true, Op.unread true, Op.read true,
            Op.unread true, Op.read true]) ∧
      ∃ res s1 L1, (Traced.mk (NewReader ['1', ' ']) []).Scan = some (res, Traced.mk s1 L1) ∧
        (NewReader ['1', ' ']).Scan = some (res, s1) ∧ unreadsFollowReads L1 = true ∧
        [] <:+ L1 :=
  ⟨by decide, by decide, C18_unreads_follow_reads (NewReader ['1', ' ']) [] (by decide)⟩

end Lexer
